import Mathlib

/-!
# Concurrent queue strategies (`queue.h`, `main.cpp`): sequential semantics

A shallow embedding of the four queue classes of `queue.h` and of the producer and
consumer lambdas of `main.cpp`, executed by one thread at a time.

Modelling conventions.

* `uint8_t` is `Fin 256`.
* Every atomic load, store and compare-and-swap is one step on an explicit state; a
  compare-and-swap succeeds exactly when the current value equals the expected one
  (a spurious failure of `compare_exchange_weak` is not modelled).
* A `while (true)` loop takes a step budget; running out of budget is the outcome
  `Outcome.fuel`, a wait on the condition variable with nobody left to notify is
  `Outcome.waits`, a dereference of a null or dangling pointer is `Outcome.fault`.
* The `for (retries = 0; retries < config.retries; retries++)` loop is a recursion on
  the number of iterations still to run, which is `config.retries.toNat` at the start.
* The ring cursors (`size_t`) are unbounded `Nat`: no run considered here moves a
  64-bit cursor past `2^64`.
* The `int` members `thread_count`, the generation `ref` of a ring slot and the
  consumer's `sum` are `Int` values kept in the range of `int` by `wrap32`: an
  increment past `2^31 - 1` wraps to `-2^31`, as `std::atomic<int>::fetch_add` does and
  as two's complement hardware does for `int`. The generations of the tagged pointers
  of `DynamicNoLockQueue` are unbounded `Int`: each increment there allocates a node
  that is never freed, so no run reaches `2^31` of them.
* Members that no constructor initialises hold whatever the memory held: the
  constructors take that content as an argument (`garbage` for `thread_count`, `mem`
  for the byte array of `FixedSizeLockQueue` and for the slots of
  `FixedSizeNoLockQueue`).
* `pos % capacity` with `capacity = 0` is a division by zero: `Outcome.fault`.
-/

namespace ConcurrentQueue

/-! ## Definitions -/

/-- The item type `uint8_t`. -/
abbrev Byte := Fin 256

/-- Result of running one queue operation on a state of type `σ`. -/
inductive Outcome (σ α : Type) where
  /-- The call returned `a`, leaving the queue in state `s`. -/
  | done (s : σ) (a : α)
  /-- The call is blocked in `full_cond_var.wait`, the queue being in state `s`. -/
  | waits (s : σ)
  /-- The call dereferenced a null or dangling pointer, or divided by zero. -/
  | fault
  /-- The step budget of a `while (true)` loop ran out. -/
  | fuel

/-- The value a completed call returned. -/
def Outcome.value? {σ α : Type} : Outcome σ α → Option α
  | .done _ a => some a
  | _ => none

/-- The state a completed call left behind. -/
def Outcome.state? {σ α : Type} : Outcome σ α → Option σ
  | .done s _ => some s
  | _ => none

/-- `P` holds of the state in which the call returned or is waiting. -/
def Outcome.Forall {σ α : Type} (P : σ → Prop) : Outcome σ α → Prop
  | .done s _ => P s
  | .waits s => P s
  | .fault => True
  | .fuel => True

/-- One call issued by a client of a queue. -/
inductive Op where
  | push (val : Byte)
  | pop
deriving DecidableEq, Repr

/-- Number of `push` calls in a sequence of calls. -/
def pushCount : List Op → Nat
  | [] => 0
  | .push _ :: ops => pushCount ops + 1
  | .pop :: ops => pushCount ops

/-- The values pushed by a sequence of calls, in call order. -/
def pushedValues : List Op → List Byte
  | [] => []
  | .push v :: ops => v :: pushedValues ops
  | .pop :: ops => pushedValues ops

/-- The values returned by the successful pops among the recorded pop results. -/
def poppedValues : List (Option Byte) → List Byte
  | [] => []
  | some v :: outs => v :: poppedValues outs
  | none :: outs => poppedValues outs

/-- The value of an `int` after an arithmetic step with exact result `x`: `x` reduced
to the range `-2^31 ≤ · < 2^31`. -/
def wrap32 (x : Int) : Int :=
  (x + 2147483648) % 4294967296 - 2147483648

/-- `struct QueueConfig`. -/
structure QueueConfig where
  retries : Int := 2
deriving DecidableEq, Repr

/-- The members of `class IQueue`. -/
structure IQueue where
  config : QueueConfig
  thread_count : Int
deriving DecidableEq, Repr

namespace IQueue

/-- `IQueue(const QueueConfig&)`: only `config` is initialised; `garbage` is the
value the uninitialised `thread_count` holds. -/
def construct (config : QueueConfig) (garbage : Int) : IQueue :=
  { config := config, thread_count := garbage }

/-- `one_producer_started`: `thread_count.fetch_add(1)`. -/
def one_producer_started (q : IQueue) : IQueue :=
  { q with thread_count := wrap32 (q.thread_count + 1) }

/-- `one_producer_finished`: `thread_count.fetch_sub(1)`. -/
def one_producer_finished (q : IQueue) : IQueue :=
  { q with thread_count := wrap32 (q.thread_count - 1) }

/-- `is_producing_finished`: `thread_count.load() == 0`. -/
def is_producing_finished (q : IQueue) : Bool :=
  decide (q.thread_count = 0)

end IQueue

/-- `class DynamicLockQueue`: the `std::queue` is a list, front first. -/
structure DynamicLockQueue extends IQueue where
  q : List Byte
deriving DecidableEq, Repr

namespace DynamicLockQueue

/-- `DynamicLockQueue(const QueueConfig&)`. -/
def construct (config : QueueConfig) (garbage : Int) : DynamicLockQueue :=
  { IQueue.construct config garbage with q := [] }

/-- `push`: `q.push(val)` under the lock. -/
def push (s : DynamicLockQueue) (val : Byte) : DynamicLockQueue :=
  { s with q := s.q ++ [val] }

/-- The retry loop of `pop` with `n` iterations still to run (the iteration with
loop counter `config.retries - n`); the sleep between attempts changes no state. -/
def popRetry (s : DynamicLockQueue) (val : Byte) : Nat → Bool × Byte × DynamicLockQueue
  | 0 => (false, val, s)
  | n + 1 =>
    match s.q with
    | front :: rest => (true, front, { s with q := rest })
    | [] => popRetry s val n

/-- `pop(uint8_t& val)`: returns the result, the final `val` and the final queue. -/
def pop (s : DynamicLockQueue) (val : Byte) : Bool × Byte × DynamicLockQueue :=
  popRetry s val s.config.retries.toNat

end DynamicLockQueue

/-! ### `FixedSizeLockQueue<capacity>` -/

/-- `class FixedSizeLockQueue`: `data` maps an index of the array to its byte. -/
structure FixedSizeLockQueue extends IQueue where
  data : Nat → Byte
  ql : Nat
  qr : Nat
  is_full : Bool

namespace FixedSizeLockQueue

/-- `FixedSizeLockQueue(const QueueConfig&)`; `mem` is the uninitialised array. -/
def construct (config : QueueConfig) (garbage : Int) (mem : Nat → Byte) :
    FixedSizeLockQueue :=
  { IQueue.construct config garbage with data := mem, ql := 0, qr := 0, is_full := false }

/-- `size()`. -/
def size (capacity : Nat) (s : FixedSizeLockQueue) : Nat :=
  if s.ql ≤ s.qr then s.qr - s.ql else capacity - (s.ql - s.qr)

/-- `empty()`. -/
def empty (capacity : Nat) (s : FixedSizeLockQueue) : Bool :=
  decide (size capacity s = 0)

/-- `full()`. -/
def full (capacity : Nat) (s : FixedSizeLockQueue) : Bool :=
  decide (size capacity s = capacity - 1)

/-- `push`: waits while `is_full`, else writes at `qr`, advances it and recomputes
the flag. -/
def push (capacity : Nat) (s : FixedSizeLockQueue) (val : Byte) :
    Outcome FixedSizeLockQueue Unit :=
  if s.is_full then .waits s
  else
    let s1 := { s with data := Function.update s.data s.qr val, qr := s.qr + 1 }
    let s2 := { s1 with qr := s1.qr % capacity }
    .done { s2 with is_full := full capacity s2 } ()

/-- The retry loop of `pop` with `n` iterations still to run. -/
def popRetry (capacity : Nat) (s : FixedSizeLockQueue) (val : Byte) :
    Nat → Bool × Byte × FixedSizeLockQueue
  | 0 => (false, val, s)
  | n + 1 =>
    if !(empty capacity s) then
      let s1 := { s with ql := s.ql + 1 }
      let s2 := { s1 with ql := s1.ql % capacity }
      let s3 := if s2.is_full then { s2 with is_full := false } else s2
      (true, s.data s.ql, s3)
    else popRetry capacity s val n

/-- `pop(uint8_t& val)`. -/
def pop (capacity : Nat) (s : FixedSizeLockQueue) (val : Byte) :
    Bool × Byte × FixedSizeLockQueue :=
  popRetry capacity s val s.config.retries.toNat

/-- The bytes between the two indices, oldest first: the resident items. -/
def contents (capacity : Nat) (s : FixedSizeLockQueue) : List Byte :=
  (List.range (size capacity s)).map (fun i => s.data ((s.ql + i) % capacity))

/-- Run a sequence of calls, recording what each pop returned (`none` for `false`);
a push that has to wait ends the run. -/
def run (capacity : Nat) :
    List Op → FixedSizeLockQueue → List (Option Byte) →
      Outcome FixedSizeLockQueue (List (Option Byte))
  | [], s, outs => .done s outs
  | .push v :: ops, s, outs =>
    match push capacity s v with
    | .done s1 _ => run capacity ops s1 outs
    | .waits s1 => .waits s1
    | .fault => .fault
    | .fuel => .fuel
  | .pop :: ops, s, outs =>
    match pop capacity s 0 with
    | (true, v, s1) => run capacity ops s1 (outs ++ [some v])
    | (false, _, s1) => run capacity ops s1 (outs ++ [none])

end FixedSizeLockQueue

/-! ### `FixedSizeNoLockQueue<capacity>` -/

/-- `struct DataWithRef`: a slot of the lock-free ring. -/
structure DataWithRef where
  data : Byte
  ref : Int
deriving DecidableEq, Repr

/-- `class FixedSizeNoLockQueue`: `data` maps an index of the array to its slot. -/
structure FixedSizeNoLockQueue extends IQueue where
  data : Nat → DataWithRef
  ql : Nat
  qr : Nat

namespace FixedSizeNoLockQueue

/-- `FixedSizeNoLockQueue(const QueueConfig&)`: only the cursors are initialised;
`mem` is the content of the uninitialised slot array. -/
def construct (config : QueueConfig) (garbage : Int) (mem : Nat → DataWithRef) :
    FixedSizeNoLockQueue :=
  { IQueue.construct config garbage with data := mem, ql := 0, qr := 0 }

/-- `data[i].compare_exchange_weak(expected, desired)`: the state after the call and
whether it succeeded. -/
def casSlot (q : FixedSizeNoLockQueue) (i : Nat) (expected desired : DataWithRef) :
    FixedSizeNoLockQueue × Bool :=
  if q.data i = expected then ({ q with data := Function.update q.data i desired }, true)
  else (q, false)

/-- `qr.compare_exchange_strong(expected, desired)`. -/
def casQr (q : FixedSizeNoLockQueue) (expected desired : Nat) : FixedSizeNoLockQueue :=
  if q.qr = expected then { q with qr := desired } else q

/-- `ql.compare_exchange_strong(expected, desired)`. -/
def casQl (q : FixedSizeNoLockQueue) (expected desired : Nat) : FixedSizeNoLockQueue :=
  if q.ql = expected then { q with ql := desired } else q

/-- The `while (true)` loop of `push`, one iteration per unit of budget. -/
def pushLoop (capacity : Nat) (val : Byte) :
    Nat → FixedSizeNoLockQueue → Outcome FixedSizeNoLockQueue Unit
  | 0, _ => .fuel
  | fuel + 1, q =>
    if capacity = 0 then .fault
    else
      let pos := q.qr
      let back := q.data (pos % capacity)
      if pos ≠ q.qr then pushLoop capacity val fuel q
      else if pos = q.ql + capacity then .waits q
      else if back.data = 0 then
        match casSlot q (pos % capacity) back ⟨val, wrap32 (back.ref + 1)⟩ with
        | (q1, true) => .done (casQr q1 pos (pos + 1)) ()
        | (q1, false) => pushLoop capacity val fuel q1
      else pushLoop capacity val fuel (casQr q pos (pos + 1))

/-- `push(uint8_t val)`. -/
def push (capacity fuel : Nat) (q : FixedSizeNoLockQueue) (val : Byte) :
    Outcome FixedSizeNoLockQueue Unit :=
  pushLoop capacity val fuel q

/-- The inner `while (true)` loop of `pop`: `some v` when it returns `true` with
`val = v`, `none` when it leaves the loop through `break`. -/
def popLoop (capacity : Nat) :
    Nat → FixedSizeNoLockQueue → Outcome FixedSizeNoLockQueue (Option Byte)
  | 0, _ => .fuel
  | fuel + 1, q =>
    if capacity = 0 then .fault
    else
      let pos := q.ql
      let front := q.data (pos % capacity)
      if pos ≠ q.ql then popLoop capacity fuel q
      else if pos = q.qr then .done q none
      else if front.data ≠ 0 then
        match casSlot q (pos % capacity) front ⟨0, wrap32 (front.ref + 1)⟩ with
        | (q1, true) => .done (casQl q1 pos (pos + 1)) (some front.data)
        | (q1, false) => popLoop capacity fuel q1
      else popLoop capacity fuel (casQl q pos (pos + 1))

/-- The retry loop of `pop` with `n` iterations still to run. -/
def popRetry (capacity fuel : Nat) (val : Byte) :
    Nat → FixedSizeNoLockQueue → Outcome FixedSizeNoLockQueue (Bool × Byte)
  | 0, q => .done q (false, val)
  | n + 1, q =>
    match popLoop capacity fuel q with
    | .done q1 (some v) => .done q1 (true, v)
    | .done q1 none => popRetry capacity fuel val n q1
    | .waits q1 => .waits q1
    | .fault => .fault
    | .fuel => .fuel

/-- `pop(uint8_t& val)`: the result and the final `val`. -/
def pop (capacity fuel : Nat) (q : FixedSizeNoLockQueue) (val : Byte) :
    Outcome FixedSizeNoLockQueue (Bool × Byte) :=
  popRetry capacity fuel val q.config.retries.toNat q

/-- Run a sequence of calls, recording what each pop returned (`none` for `false`). -/
def run (capacity fuel : Nat) :
    List Op → FixedSizeNoLockQueue → List (Option Byte) →
      Outcome FixedSizeNoLockQueue (List (Option Byte))
  | [], q, outs => .done q outs
  | .push v :: ops, q, outs =>
    match push capacity fuel q v with
    | .done q1 _ => run capacity fuel ops q1 outs
    | .waits q1 => .waits q1
    | .fault => .fault
    | .fuel => .fuel
  | .pop :: ops, q, outs =>
    match pop capacity fuel q 0 with
    | .done q1 (true, v) => run capacity fuel ops q1 (outs ++ [some v])
    | .done q1 (false, _) => run capacity fuel ops q1 (outs ++ [none])
    | .waits q1 => .waits q1
    | .fault => .fault
    | .fuel => .fuel

/-- Call `pop` until it returns `false`, at most `k` times, collecting the values of
the successful pops after `acc`. -/
def drain (capacity fuel : Nat) :
    Nat → FixedSizeNoLockQueue → List Byte → Outcome FixedSizeNoLockQueue (List Byte)
  | 0, _, _ => .fuel
  | k + 1, q, acc =>
    match pop capacity fuel q 0 with
    | .done q1 (true, v) => drain capacity fuel k q1 (acc ++ [v])
    | .done q1 (false, _) => .done q1 acc
    | .waits q1 => .waits q1
    | .fault => .fault
    | .fuel => .fuel

/-- Push `xs` onto the queue `q0`, then drain it. -/
def pushThenDrain (capacity fuel k : Nat) (q0 : FixedSizeNoLockQueue) (xs : List Byte) :
    Outcome FixedSizeNoLockQueue (List Byte) :=
  match run capacity fuel (xs.map Op.push) q0 [] with
  | .done q _ => drain capacity fuel k q []
  | .waits q => .waits q
  | .fault => .fault
  | .fuel => .fuel

end FixedSizeNoLockQueue

/-! ### `DynamicNoLockQueue` -/

/-- `struct tagged_ptr<node>`: an address (an index of the heap, `none` for
`nullptr`) and a generation. -/
structure tagged_ptr where
  ptr : Option Nat
  ref : Int
deriving DecidableEq, Repr

/-- `tagged_ptr::operator==`. -/
def tagged_ptr.eq (a b : tagged_ptr) : Bool :=
  decide (a.ptr = b.ptr) && decide (a.ref = b.ref)

/-- `tagged_ptr::operator!=`. -/
def tagged_ptr.ne (a b : tagged_ptr) : Bool :=
  decide (a.ptr ≠ b.ptr) || decide (a.ref ≠ b.ref)

/-- `struct node`. -/
structure node where
  data : Byte
  next : tagged_ptr
deriving DecidableEq, Repr

/-- `class DynamicNoLockQueue`: `heap` lists the nodes allocated so far, a node's
address being its position; `new node()` appends. -/
structure DynamicNoLockQueue extends IQueue where
  heap : List node
  head : tagged_ptr
  tail : tagged_ptr
deriving DecidableEq, Repr

namespace DynamicNoLockQueue

/-- `node()`. -/
def newNode : node := { data := 0, next := ⟨none, 0⟩ }

/-- `DynamicNoLockQueue(const QueueConfig&)`: one dummy node at address `0`. -/
def construct (config : QueueConfig) (garbage : Int) : DynamicNoLockQueue :=
  { IQueue.construct config garbage with
    heap := [newNode], head := ⟨some 0, 0⟩, tail := ⟨some 0, 0⟩ }

/-- The node a tagged pointer points at (`operator->`), if any. -/
def deref (heap : List node) (p : tagged_ptr) : Option node :=
  match p.ptr with
  | none => none
  | some a => heap[a]?

/-- `p->next.compare_exchange_weak(expected, desired)`: the heap after the call and
whether it succeeded; `none` when `p` points at no node. -/
def casNext (heap : List node) (p : tagged_ptr) (expected desired : tagged_ptr) :
    Option (List node × Bool) :=
  match p.ptr with
  | none => none
  | some a =>
    match heap[a]? with
    | none => none
    | some nd =>
      if nd.next = expected then some (heap.set a { nd with next := desired }, true)
      else some (heap, false)

/-- `tail.compare_exchange_strong(expected, desired)`. -/
def casTail (q : DynamicNoLockQueue) (expected desired : tagged_ptr) : DynamicNoLockQueue :=
  if q.tail = expected then { q with tail := desired } else q

/-- `head.compare_exchange_weak(expected, desired)`: the state after the call and
whether it succeeded. -/
def casHead (q : DynamicNoLockQueue) (expected desired : tagged_ptr) :
    DynamicNoLockQueue × Bool :=
  if q.head = expected then ({ q with head := desired }, true) else (q, false)

/-- The `while (true)` loop of `push`; `fresh` is the address of the new node. -/
def pushLoop (fresh : Nat) : Nat → DynamicNoLockQueue → Outcome DynamicNoLockQueue Unit
  | 0, _ => .fuel
  | fuel + 1, q =>
    let last := q.tail
    match deref q.heap last with
    | none => .fault
    | some lastNode =>
      let next := lastNode.next
      if last.ne q.tail then pushLoop fresh fuel q
      else if next.ptr = none then
        match casNext q.heap q.tail next ⟨some fresh, next.ref + 1⟩ with
        | none => .fault
        | some (heap1, true) =>
          .done (casTail { q with heap := heap1 } last ⟨some fresh, last.ref + 1⟩) ()
        | some (_, false) => pushLoop fresh fuel q
      else pushLoop fresh fuel (casTail q last ⟨next.ptr, last.ref + 1⟩)

/-- `push(uint8_t val)`: allocate the node, then run the loop. -/
def push (fuel : Nat) (q : DynamicNoLockQueue) (val : Byte) :
    Outcome DynamicNoLockQueue Unit :=
  let fresh := q.heap.length
  let q0 := { q with heap := q.heap ++ [{ newNode with data := val, next := ⟨none, 0⟩ }] }
  pushLoop fresh fuel q0

/-- The inner `while (true)` loop of `pop`, started with `val` in the caller's
variable: the final `val` and `true` when it returns, `false` when it leaves the loop
through `break`. -/
def popLoop : Nat → DynamicNoLockQueue → Byte → Outcome DynamicNoLockQueue (Bool × Byte)
  | 0, _, _ => .fuel
  | fuel + 1, q, val =>
    let first := q.head
    let last := q.tail
    match deref q.heap first with
    | none => .fault
    | some firstNode =>
      let next := firstNode.next
      if first.eq q.head then
        if first.ptr = last.ptr then
          if next.ptr = none then .done q (false, val)
          else popLoop fuel (casTail q last ⟨next.ptr, last.ref + 1⟩) val
        else
          match deref q.heap next with
          | none => .fault
          | some nextNode =>
            match casHead q first ⟨next.ptr, first.ref + 1⟩ with
            | (q1, true) => .done q1 (true, nextNode.data)
            | (q1, false) => popLoop fuel q1 nextNode.data
      else popLoop fuel q val

/-- The retry loop of `pop` with `n` iterations still to run. -/
def popRetry (fuel : Nat) :
    Nat → DynamicNoLockQueue → Byte → Outcome DynamicNoLockQueue (Bool × Byte)
  | 0, q, val => .done q (false, val)
  | n + 1, q, val =>
    match popLoop fuel q val with
    | .done q1 (true, v) => .done q1 (true, v)
    | .done q1 (false, v) => popRetry fuel n q1 v
    | .waits q1 => .waits q1
    | .fault => .fault
    | .fuel => .fuel

/-- `pop(uint8_t& val)`: the result and the final `val`. -/
def pop (fuel : Nat) (q : DynamicNoLockQueue) (val : Byte) :
    Outcome DynamicNoLockQueue (Bool × Byte) :=
  popRetry fuel q.config.retries.toNat q val

/-- The payloads of the nodes reached from address `p` by following `next`, at most
`k` of them. -/
def payloads (heap : List node) : Nat → Option Nat → List Byte
  | 0, _ => []
  | _ + 1, none => []
  | k + 1, some a =>
    match heap[a]? with
    | none => []
    | some nd => nd.data :: payloads heap k nd.next.ptr

/-- The payloads of the nodes reachable from `head.next`, oldest first. -/
def contents (q : DynamicNoLockQueue) : List Byte :=
  match deref q.heap q.head with
  | none => []
  | some nd => payloads q.heap q.heap.length nd.next.ptr

/-- Run a sequence of calls, recording what each pop returned (`none` for `false`). -/
def run (fuel : Nat) :
    List Op → DynamicNoLockQueue → List (Option Byte) →
      Outcome DynamicNoLockQueue (List (Option Byte))
  | [], q, outs => .done q outs
  | .push v :: ops, q, outs =>
    match push fuel q v with
    | .done q1 _ => run fuel ops q1 outs
    | .waits q1 => .waits q1
    | .fault => .fault
    | .fuel => .fuel
  | .pop :: ops, q, outs =>
    match pop fuel q 0 with
    | .done q1 (true, v) => run fuel ops q1 (outs ++ [some v])
    | .done q1 (false, _) => run fuel ops q1 (outs ++ [none])
    | .waits q1 => .waits q1
    | .fault => .fault
    | .fuel => .fuel

end DynamicNoLockQueue

/-! ### `process<DynamicNoLockQueue>` of `main.cpp` -/

namespace process

/-- What a consumer has seen: its running `sum` and the result of each `pop` it has
made, in order. -/
structure Tally where
  sum : Int
  pops : List Bool
deriving DecidableEq, Repr

/-- The producer lambda with `push(1)` generalised to the values `xs`: announce,
push every value, retire. -/
def producer (fuel : Nat) (q : DynamicNoLockQueue) (xs : List Byte) :
    Outcome DynamicNoLockQueue Unit :=
  let q0 := { q with toIQueue := q.toIQueue.one_producer_started }
  match DynamicNoLockQueue.run fuel (xs.map Op.push) q0 [] with
  | .done q1 _ => .done { q1 with toIQueue := q1.toIQueue.one_producer_finished } ()
  | .waits q1 => .waits q1
  | .fault => .fault
  | .fuel => .fuel

/-- The `while (true)` loop of the consumer lambda, at most `k` iterations. -/
def consumer (fuel : Nat) :
    Nat → DynamicNoLockQueue → Tally → Outcome DynamicNoLockQueue Tally
  | 0, _, _ => .fuel
  | k + 1, q, t =>
    match DynamicNoLockQueue.pop fuel q 0 with
    | .done q1 (true, val) =>
      consumer fuel k q1 { sum := wrap32 (t.sum + (val.val : Int)), pops := t.pops ++ [true] }
    | .done q1 (false, _) =>
      if q1.toIQueue.is_producing_finished then .done q1 { t with pops := t.pops ++ [false] }
      else consumer fuel k q1 { t with pops := t.pops ++ [false] }
    | .waits q1 => .waits q1
    | .fault => .fault
    | .fuel => .fuel

/-- One schedule of the threads of `process` taken call by call, two producers and
two consumers: each consumer thread runs its loop before a producer thread has made
its first call, then each producer pushes `xs`. The value is what the two consumers
saw. -/
def consumersThenProducers (fuel k : Nat) (config : QueueConfig) (garbage : Int)
    (xs : List Byte) : Outcome DynamicNoLockQueue (Tally × Tally) :=
  match consumer fuel k (DynamicNoLockQueue.construct config garbage) { sum := 0, pops := [] } with
  | .done q1 t1 =>
    match consumer fuel k q1 { sum := 0, pops := [] } with
    | .done q2 t2 =>
      match producer fuel q2 xs with
      | .done q3 _ =>
        match producer fuel q3 xs with
        | .done q4 _ => .done q4 (t1, t2)
        | .waits q => .waits q
        | .fault => .fault
        | .fuel => .fuel
      | .waits q => .waits q
      | .fault => .fault
      | .fuel => .fuel
    | .waits q => .waits q
    | .fault => .fault
    | .fuel => .fuel
  | .waits q => .waits q
  | .fault => .fault
  | .fuel => .fuel

/-- The schedule in which each producer thread runs to its end before a consumer
thread starts: two producers pushing `xs` each, then the two consumer loops. -/
def producersThenConsumers (fuel k : Nat) (config : QueueConfig) (garbage : Int)
    (xs : List Byte) : Outcome DynamicNoLockQueue (Tally × Tally) :=
  match producer fuel (DynamicNoLockQueue.construct config garbage) xs with
  | .done q1 _ =>
    match producer fuel q1 xs with
    | .done q2 _ =>
      match consumer fuel k q2 { sum := 0, pops := [] } with
      | .done q3 t1 =>
        match consumer fuel k q3 { sum := 0, pops := [] } with
        | .done q4 t2 => .done q4 (t1, t2)
        | .waits q => .waits q
        | .fault => .fault
        | .fuel => .fuel
      | .waits q => .waits q
      | .fault => .fault
      | .fuel => .fuel
    | .waits q => .waits q
    | .fault => .fault
    | .fuel => .fuel
  | .waits q => .waits q
  | .fault => .fault
  | .fuel => .fuel

end process

/-- The bounded first-in first-out queue of the specification with `cap` usable
slots: a push onto `cap` resident items waits, a pop takes the oldest item. -/
def fifoBounded (cap : Nat) :
    List Op → List Byte → List (Option Byte) → Outcome (List Byte) (List (Option Byte))
  | [], l, outs => .done l outs
  | .push v :: ops, l, outs =>
    if l.length = cap then .waits l else fifoBounded cap ops (l ++ [v]) outs
  | .pop :: ops, [], outs => fifoBounded cap ops [] (outs ++ [none])
  | .pop :: ops, x :: l, outs => fifoBounded cap ops l (outs ++ [some x])

/-- The unbounded first-in first-out queue of the specification. -/
def fifoUnbounded : List Op → List Byte → List (Option Byte) → List Byte × List (Option Byte)
  | [], l, outs => (l, outs)
  | .push v :: ops, l, outs => fifoUnbounded ops (l ++ [v]) outs
  | .pop :: ops, [], outs => fifoUnbounded ops [] (outs ++ [none])
  | .pop :: ops, x :: l, outs => fifoUnbounded ops l (outs ++ [some x])

/-- View the state of an outcome through `f`. -/
def Outcome.mapState {σ τ α : Type} (f : σ → τ) : Outcome σ α → Outcome τ α
  | .done s a => .done (f s) a
  | .waits s => .waits (f s)
  | .fault => .fault
  | .fuel => .fuel

/-- The invariant of the ring of `FixedSizeLockQueue<N>`: both indices are inside
the array and the cached flag agrees with `full()`. -/
structure FixedSizeLockQueue.Inv (N : Nat) (s : FixedSizeLockQueue) : Prop where
  ql_lt : s.ql < N
  qr_lt : s.qr < N
  flag : s.is_full = true ↔ FixedSizeLockQueue.size N s = N - 1

/-- The values in the slots between the two cursors of the lock-free ring, oldest
first. -/
def FixedSizeNoLockQueue.contents (N : Nat) (q : FixedSizeNoLockQueue) : List Byte :=
  (List.range (q.qr - q.ql)).map (fun i => (q.data ((q.ql + i) % N)).data)

/-- The invariant of the lock-free ring: the cursors are at most `N` apart and every
slot outside the window between them is empty. -/
structure FixedSizeNoLockQueue.Inv (N : Nat) (q : FixedSizeNoLockQueue) : Prop where
  le : q.ql ≤ q.qr
  bound : q.qr ≤ q.ql + N
  free : ∀ i, i < N → (∀ c, q.ql ≤ c → c < q.qr → c % N ≠ i) → (q.data i).data = 0

/-- Every slot of the window between the cursors holds a non-zero value. -/
def FixedSizeNoLockQueue.Occupied (N : Nat) (q : FixedSizeNoLockQueue) : Prop :=
  ∀ c, q.ql ≤ c → c < q.qr → (q.data (c % N)).data ≠ 0

/-- The shape of the heap of a `DynamicNoLockQueue` between calls of one thread: the
nodes are linked in allocation order, `tail` points at the last node and `head` at
some node. -/
structure DynamicNoLockQueue.Inv (q : DynamicNoLockQueue) : Prop where
  links : ∀ i nd, q.heap[i]? = some nd →
    nd.next.ptr = if i + 1 < q.heap.length then some (i + 1) else none
  tail_last : ∃ t, q.tail.ptr = some t ∧ t + 1 = q.heap.length
  head_in : ∃ h, q.head.ptr = some h ∧ h < q.heap.length

/-- The cursors of the lock-free ring are in order and at most `N` apart. -/
def FixedSizeNoLockQueue.Cursors (N : Nat) (q : FixedSizeNoLockQueue) : Prop :=
  q.ql ≤ q.qr ∧ q.qr ≤ q.ql + N

/-! ### Single loop iterations and instrumented loops -/

/-- How one iteration of a `while (true)` loop ends. -/
inductive Step (σ : Type) where
  /-- The iteration ends in `continue` (or falls off the loop body). -/
  | retry (s : σ)
  /-- The iteration ends in `break`. -/
  | exit (s : σ)
  /-- The iteration blocks in `full_cond_var.wait`. -/
  | waits (s : σ)
  /-- The iteration divided by zero. -/
  | fault

/-- The state in which an iteration ends, if it ends in one. -/
def Step.state? {σ : Type} : Step σ → Option σ
  | .retry s => some s
  | .exit s => some s
  | .waits s => some s
  | .fault => none

/-- Whether the iteration ends in `continue`. -/
def Step.isRetry {σ : Type} : Step σ → Bool
  | .retry _ => true
  | _ => false

/-- One iteration of the `while (true)` loop of `FixedSizeNoLockQueue::push`, given
the locals `pos` and `back` loaded at its top; `q` is the shared state met by the
checks and compare-and-swaps that follow, which other threads may have changed since
the two loads. -/
def FixedSizeNoLockQueue.pushIteration (capacity : Nat) (val : Byte) (pos : Nat)
    (back : DataWithRef) (q : FixedSizeNoLockQueue) : Step FixedSizeNoLockQueue :=
  if capacity = 0 then .fault
  else if pos ≠ q.qr then .retry q
  else if pos = q.ql + capacity then .waits q
  else if back.data = 0 then
    match FixedSizeNoLockQueue.casSlot q (pos % capacity) back
        ⟨val, wrap32 (back.ref + 1)⟩ with
    | (q1, true) => .exit (FixedSizeNoLockQueue.casQr q1 pos (pos + 1))
    | (q1, false) => .retry q1
  else .retry (FixedSizeNoLockQueue.casQr q pos (pos + 1))

/-- What `DynamicLockQueue::pop` does besides touching the queue. -/
inductive PopEvent where
  /-- The test `q.empty()` under the lock. -/
  | check
  /-- The call `sleep_for(1ms)`. -/
  | sleep
deriving DecidableEq, Repr

/-- The retry loop of `DynamicLockQueue::pop` with its loop counter `retries` and `n`
iterations still to run, recording every emptiness check and every sleep. -/
def DynamicLockQueue.popRetryLog (s : DynamicLockQueue) (val : Byte) :
    Nat → Int → Bool × Byte × DynamicLockQueue × List PopEvent
  | 0, _ => (false, val, s, [])
  | n + 1, retries =>
    match s.q with
    | front :: rest => (true, front, { s with q := rest }, [.check])
    | [] =>
      let pause : List PopEvent := if retries ≠ s.config.retries - 1 then [.sleep] else []
      match DynamicLockQueue.popRetryLog s val n (retries + 1) with
      | (found, val1, s1, log) => (found, val1, s1, .check :: pause ++ log)

/-- `DynamicLockQueue::pop` with the record of its checks and sleeps. -/
def DynamicLockQueue.popLog (s : DynamicLockQueue) (val : Byte) :
    Bool × Byte × DynamicLockQueue × List PopEvent :=
  DynamicLockQueue.popRetryLog s val s.config.retries.toNat 0

theorem poppedValues_append :
    ∀ (l l1 : List (Option Byte)), poppedValues (l ++ l1) = poppedValues l ++ poppedValues l1
  | [], _ => rfl
  | none :: l, l1 => by simpa [poppedValues] using poppedValues_append l l1
  | some v :: l, l1 => by simpa [poppedValues] using poppedValues_append l l1

/-! ### The base class is left alone by `push` and `pop` -/

theorem Outcome.Forall.imp {σ α : Type} {P Q : σ → Prop} (h : ∀ s, P s → Q s) :
    ∀ {o : Outcome σ α}, o.Forall P → o.Forall Q
  | .done _ _, hp => h _ hp
  | .waits _, hp => h _ hp
  | .fault, _ => trivial
  | .fuel, _ => trivial

namespace DynamicLockQueue

end DynamicLockQueue

namespace FixedSizeLockQueue

end FixedSizeLockQueue

namespace FixedSizeNoLockQueue

end FixedSizeNoLockQueue

namespace DynamicNoLockQueue

theorem casTail_toIQueue (q : DynamicNoLockQueue) (e d : tagged_ptr) :
    (casTail q e d).toIQueue = q.toIQueue := by
  unfold casTail
  split <;> rfl

theorem casHead_toIQueue (q : DynamicNoLockQueue) (e d : tagged_ptr) :
    (casHead q e d).1.toIQueue = q.toIQueue := by
  unfold casHead
  split <;> rfl

theorem popLoop_toIQueue_dynNoLock :
    ∀ fuel q val, (popLoop fuel q val).Forall (fun s => s.toIQueue = q.toIQueue)
  | 0, _, _ => trivial
  | fuel + 1, q, val => by
    unfold popLoop
    dsimp only
    split
    · trivial
    · next firstNode _ =>
      split_ifs with h1 h2 h3
      · exact rfl
      · exact (popLoop_toIQueue_dynNoLock fuel _ val).imp
          (fun s hs => hs.trans (casTail_toIQueue q _ _))
      · split
        · trivial
        · next nextNode _ =>
          have hc := casHead_toIQueue q q.head ⟨firstNode.next.ptr, q.head.ref + 1⟩
          split
          · next q1 heq => rw [heq] at hc; exact hc
          · next q1 heq =>
            rw [heq] at hc
            exact (popLoop_toIQueue_dynNoLock fuel q1 _).imp (fun s hs => hs.trans hc)
      · exact popLoop_toIQueue_dynNoLock fuel q val

theorem popRetry_toIQueue_dynNoLock (fuel : Nat) :
    ∀ n q val, (popRetry fuel n q val).Forall (fun s => s.toIQueue = q.toIQueue)
  | 0, _, _ => rfl
  | n + 1, q, val => by
    unfold popRetry
    have hl := popLoop_toIQueue_dynNoLock fuel q val
    split
    · next q1 v heq => rw [heq] at hl; exact hl
    · next q1 v heq =>
      rw [heq] at hl
      exact (popRetry_toIQueue_dynNoLock fuel n q1 v).imp (fun s hs => hs.trans hl)
    · next q1 heq => rw [heq] at hl; exact hl
    · trivial
    · trivial

end DynamicNoLockQueue

/-! ### `DynamicLockQueue::pop` -/

/-- C4 (as stated, refuted): with `retries = 0` the loop of `DynamicLockQueue::pop`
runs no iteration, so on the non-empty queue `[7]` pop returns `false`, leaves `val`
alone and removes nothing. -/
theorem C4_counterexample_zero_retries :
    DynamicLockQueue.pop { config := { retries := 0 }, thread_count := 0, q := [7] } 0
      = (false, 0, { config := { retries := 0 }, thread_count := 0, q := [7] }) := by
  decide

/-- C4 (amended): for every retry count `retries ≥ 1`, `DynamicLockQueue::pop` on a
queue whose front item is `front` returns `true`, stores `front` in `val` and leaves
exactly the remaining items, in their order; and pop returns `false` only when the
queue is empty. -/
theorem C4_dynamicLock_pop_contract (s : DynamicLockQueue) (val : Byte)
    (hR : 1 ≤ s.config.retries) :
    (∀ front rest, s.q = front :: rest →
        s.pop val = (true, front, { s with q := rest })) ∧
      ((s.pop val).1 = false → s.q = []) := by
  obtain ⟨n, hn⟩ : ∃ n, s.config.retries.toNat = n + 1 :=
    ⟨s.config.retries.toNat - 1, by omega⟩
  refine ⟨fun front rest hq => ?_, fun hfalse => ?_⟩
  · simp [DynamicLockQueue.pop, hn, DynamicLockQueue.popRetry, hq]
  · cases hq : s.q with
    | nil => rfl
    | cons front rest =>
      simp [DynamicLockQueue.pop, hn, DynamicLockQueue.popRetry, hq] at hfalse

/-- Witness for C4: the default configuration (`retries = 2`) on the queue `[7, 9]`. -/
theorem C4_dynamicLock_pop_contract_witness :
    (1 : Int) ≤ 2 ∧
      DynamicLockQueue.pop { config := { retries := 2 }, thread_count := 0, q := [7, 9] } 0
        = (true, 7, { config := { retries := 2 }, thread_count := 0, q := [9] }) :=
  ⟨by decide,
    (C4_dynamicLock_pop_contract
      { config := { retries := 2 }, thread_count := 0, q := [7, 9] } 0 (by decide)).1 7 [9] rfl⟩

/-! ### The termination tracker -/

theorem wrap32_of_range {x : Int} (h1 : -2147483648 ≤ x) (h2 : x < 2147483648) :
    wrap32 x = x := by
  unfold wrap32
  omega

namespace FixedSizeLockQueue

theorem ring_index_inj {N a i j : Nat} (hi : i < N) (hj : j < N)
    (h : (a + i) % N = (a + j) % N) : i = j := by
  have h1 : i % N = j % N := Nat.ModEq.add_left_cancel' a h
  rwa [Nat.mod_eq_of_lt hi, Nat.mod_eq_of_lt hj] at h1

theorem succ_mod_cases {N a : Nat} (ha : a < N) :
    (a + 1 < N ∧ (a + 1) % N = a + 1) ∨ (a + 1 = N ∧ (a + 1) % N = 0) := by
  rcases Nat.lt_or_ge (a + 1) N with h | h
  · exact Or.inl ⟨h, Nat.mod_eq_of_lt h⟩
  · have : a + 1 = N := by omega
    exact Or.inr ⟨this, by rw [this, Nat.mod_self]⟩

theorem Inv.qr_eq {N : Nat} {s : FixedSizeLockQueue} (h : Inv N s) :
    (s.ql + size N s) % N = s.qr := by
  have h1 := h.ql_lt
  have h2 := h.qr_lt
  unfold size
  split
  · rw [show s.ql + (s.qr - s.ql) = s.qr by omega, Nat.mod_eq_of_lt h2]
  · rw [show s.ql + (N - (s.ql - s.qr)) = s.qr + N by omega, Nat.add_mod_right,
      Nat.mod_eq_of_lt h2]

theorem Inv.size_lt {N : Nat} {s : FixedSizeLockQueue} (h : Inv N s) : size N s < N := by
  have h1 := h.ql_lt
  have h2 := h.qr_lt
  unfold size
  split <;> omega

theorem contents_length (N : Nat) (s : FixedSizeLockQueue) :
    (contents N s).length = size N s := by
  simp [contents]

theorem construct_inv_fixedLock {N : Nat} (hN : 2 ≤ N) (config : QueueConfig) (garbage : Int) (mem : Nat → Byte) :
    Inv N (construct config garbage mem) := by
  refine ⟨by simp [construct]; omega, by simp [construct]; omega, ?_⟩
  simp [construct, size]
  omega

theorem push_waits {N : Nat} {s : FixedSizeLockQueue} (h : Inv N s) (v : Byte)
    (hfull : size N s = N - 1) : push N s v = .waits s := by
  have : s.is_full = true := h.flag.2 hfull
  simp [push, this]

theorem push_done {N : Nat} {s : FixedSizeLockQueue} (h : Inv N s) (v : Byte)
    (hroom : size N s < N - 1) :
    ∃ s1, push N s v = .done s1 () ∧ Inv N s1 ∧ contents N s1 = contents N s ++ [v]
      ∧ s1.toIQueue = s.toIQueue ∧ size N s1 = size N s + 1
      ∧ s1.data = Function.update s.data s.qr v := by
  have hflag : s.is_full = false := by
    cases hf : s.is_full with
    | false => rfl
    | true => have := h.flag.1 hf; omega
  have h1 := h.ql_lt
  have h2 := h.qr_lt
  have hNpos : 0 < N := by omega
  have hqr := h.qr_eq
  have hsize : ∀ b : Bool,
      size N { s with data := Function.update s.data s.qr v, qr := (s.qr + 1) % N, is_full := b }
        = size N s + 1 := by
    intro b
    have hs : size N s < N - 1 := hroom
    unfold size at hs ⊢
    dsimp only
    rcases succ_mod_cases h2 with ⟨_, e⟩ | ⟨_, e⟩ <;> rw [e] <;> split at hs <;> split <;> omega
  refine ⟨{ s with data := Function.update s.data s.qr v, qr := (s.qr + 1) % N,
                   is_full := full N { s with data := Function.update s.data s.qr v,
                                              qr := (s.qr + 1) % N } },
    ?_, ?_, ?_, rfl, hsize _, rfl⟩
  · simp [push, hflag]
  · refine ⟨h1, Nat.mod_lt _ hNpos, ?_⟩
    simp only [full, decide_eq_true_eq]
    exact Iff.rfl
  · unfold contents
    rw [hsize, List.range_succ, List.map_append]
    congr 1
    · apply List.map_congr_left
      intro i hi
      have hi' : i < size N s := List.mem_range.1 hi
      have hne : (s.ql + i) % N ≠ s.qr := by
        rw [← hqr]
        intro heq
        have := ring_index_inj (by omega) (by omega) heq
        omega
      exact Function.update_noteq hne _ _
    · simp only [List.map_cons, List.map_nil]
      rw [hqr, Function.update_same]

theorem popRetry_empty_fixedLock {N : Nat} {s : FixedSizeLockQueue} (val : Byte)
    (hempty : size N s = 0) : ∀ n, popRetry N s val n = (false, val, s)
  | 0 => rfl
  | n + 1 => by simp [popRetry, empty, hempty, popRetry_empty_fixedLock val hempty n]

theorem popRetry_nonempty {N : Nat} {s : FixedSizeLockQueue} (val : Byte)
    (hsome : 0 < size N s) (n : Nat) :
    popRetry N s val (n + 1)
      = (true, s.data s.ql, { s with ql := (s.ql + 1) % N, is_full := false }) := by
  have hne : size N s ≠ 0 := by omega
  simp only [popRetry, empty, hne, decide_False, Bool.not_false, if_true]
  cases hf : s.is_full <;> simp [hf]

theorem popped_inv_fixedLock {N : Nat} {s : FixedSizeLockQueue} (h : Inv N s) (hsome : 0 < size N s) :
    Inv N { s with ql := (s.ql + 1) % N, is_full := false }
      ∧ contents N s
          = s.data s.ql :: contents N { s with ql := (s.ql + 1) % N, is_full := false }
      ∧ size N { s with ql := (s.ql + 1) % N, is_full := false } + 1 = size N s := by
  have h1 := h.ql_lt
  have h2 := h.qr_lt
  have hNpos : 0 < N := by omega
  have hlt := h.size_lt
  have hsize : size N { s with ql := (s.ql + 1) % N, is_full := false } + 1 = size N s := by
    have hs : 0 < size N s := hsome
    unfold size at hs ⊢
    dsimp only
    rcases succ_mod_cases h1 with ⟨_, e⟩ | ⟨_, e⟩ <;> rw [e] <;> split at hs <;> split <;> omega
  refine ⟨⟨Nat.mod_lt _ hNpos, h2, ?_⟩, ?_, hsize⟩
  · constructor
    · intro hc; cases hc
    · intro hc; omega
  · unfold contents
    rw [← hsize, List.range_succ_eq_map, List.map_cons, List.map_map]
    congr 1
    · rw [Nat.add_zero, Nat.mod_eq_of_lt h1]
    · apply List.map_congr_left
      intro i _
      simp only [Function.comp]
      congr 1
      rw [Nat.mod_add_mod]
      congr 1
      omega

/-- A pop either fails and changes nothing, or takes the item at `ql`. -/
theorem pop_cases (N : Nat) (s : FixedSizeLockQueue) (val : Byte) :
    pop N s val = (false, val, s) ∨
      (0 < size N s ∧
        pop N s val = (true, s.data s.ql, { s with ql := (s.ql + 1) % N, is_full := false })) := by
  unfold pop
  rcases Nat.eq_zero_or_pos (size N s) with h0 | hpos
  · exact Or.inl (popRetry_empty_fixedLock val h0 _)
  · cases hn : s.config.retries.toNat with
    | zero => exact Or.inl rfl
    | succ n => exact Or.inr ⟨hpos, popRetry_nonempty val hpos n⟩

theorem pop_nonempty_fixedLock {N : Nat} {s : FixedSizeLockQueue} (val : Byte)
    (hR : 1 ≤ s.config.retries) (hsome : 0 < size N s) :
    pop N s val = (true, s.data s.ql, { s with ql := (s.ql + 1) % N, is_full := false }) := by
  obtain ⟨n, hn⟩ : ∃ n, s.config.retries.toNat = n + 1 :=
    ⟨s.config.retries.toNat - 1, by omega⟩
  unfold pop
  rw [hn]
  exact popRetry_nonempty val hsome n

/-- The ring refines the bounded queue of the specification, call by call. -/
theorem run_refines_fixedLock {N : Nat} :
    ∀ (ops : List Op) (s : FixedSizeLockQueue) (outs : List (Option Byte)),
      Inv N s → 1 ≤ s.config.retries →
        (run N ops s outs).mapState (contents N) = fifoBounded (N - 1) ops (contents N s) outs
  | [], s, outs, _, _ => rfl
  | .push v :: ops, s, outs, h, hR => by
    rcases Nat.lt_or_ge (size N s) (N - 1) with hroom | hfull
    · obtain ⟨s1, hp, hinv, hc, hq, _, _⟩ := push_done h v hroom
      have hlen : (contents N s).length ≠ N - 1 := by rw [contents_length]; omega
      have hR1 : 1 ≤ s1.config.retries := by rw [hq]; exact hR
      simp only [run, hp, fifoBounded, hlen, if_false]
      rw [← hc]
      exact run_refines_fixedLock ops s1 outs hinv hR1
    · have hfull' : size N s = N - 1 := by have := h.size_lt; omega
      have hlen : (contents N s).length = N - 1 := by rw [contents_length]; exact hfull'
      simp [run, push_waits h v hfull', fifoBounded, hlen, Outcome.mapState]
  | .pop :: ops, s, outs, h, hR => by
    rcases Nat.eq_zero_or_pos (size N s) with h0 | hpos
    · have hnil : contents N s = [] := by
        apply List.eq_nil_of_length_eq_zero
        rw [contents_length]
        exact h0
      have hp : pop N s 0 = (false, 0, s) := popRetry_empty_fixedLock 0 h0 _
      have ih := run_refines_fixedLock ops s (outs ++ [none]) h hR
      rw [hnil] at ih ⊢
      simp only [run, hp, fifoBounded]
      exact ih
    · obtain ⟨hinv, hc, _⟩ := popped_inv_fixedLock h hpos
      have ih := run_refines_fixedLock ops _ (outs ++ [some (s.data s.ql)]) hinv hR
      rw [hc]
      simp only [run, pop_nonempty_fixedLock 0 hR hpos, fifoBounded]
      exact ih

/-- Every completed run keeps the invariant, and `size()` counts the pushes minus the
successful pops. -/
theorem run_inv_fixedLock {N : Nat} :
    ∀ (ops : List Op) (s s1 : FixedSizeLockQueue) (outs outs1 : List (Option Byte)),
      Inv N s → run N ops s outs = .done s1 outs1 →
        Inv N s1 ∧
          size N s1 + (poppedValues outs1).length
            = size N s + (poppedValues outs).length + pushCount ops
  | [], s, s1, outs, outs1, h, hrun => by
    simp only [run, Outcome.done.injEq] at hrun
    obtain ⟨rfl, rfl⟩ := hrun
    exact ⟨h, by simp [pushCount]⟩
  | .push v :: ops, s, s1, outs, outs1, h, hrun => by
    rcases Nat.lt_or_ge (size N s) (N - 1) with hroom | hfull
    · obtain ⟨s2, hp, hinv, _, _, hsz, _⟩ := push_done h v hroom
      simp only [run, hp] at hrun
      obtain ⟨hi, hcount⟩ := run_inv_fixedLock ops s2 s1 outs outs1 hinv hrun
      exact ⟨hi, by simp only [pushCount]; omega⟩
    · have hfull' : size N s = N - 1 := by have := h.size_lt; omega
      simp [run, push_waits h v hfull'] at hrun
  | .pop :: ops, s, s1, outs, outs1, h, hrun => by
    have hpv : ∀ (l : List (Option Byte)) (o : Option Byte),
        poppedValues (l ++ [o]) = poppedValues l ++ poppedValues [o] :=
      fun l o => poppedValues_append l [o]
    rcases pop_cases N s 0 with hp | ⟨hpos, hp⟩
    · simp only [run, hp] at hrun
      obtain ⟨hi, hcount⟩ := run_inv_fixedLock ops s s1 _ outs1 h hrun
      refine ⟨hi, ?_⟩
      rw [hpv] at hcount
      simp only [poppedValues, List.append_nil, pushCount] at hcount ⊢
      omega
    · obtain ⟨hinv, _, hsz⟩ := popped_inv_fixedLock h hpos
      simp only [run, hp] at hrun
      obtain ⟨hi, hcount⟩ := run_inv_fixedLock ops _ s1 _ outs1 hinv hrun
      refine ⟨hi, ?_⟩
      rw [hpv] at hcount
      simp only [poppedValues, List.length_append, List.length_singleton, pushCount]
        at hcount ⊢
      omega

end FixedSizeLockQueue

/-! ### `FixedSizeLockQueue`: first-in first-out order, backpressure, capacity -/

/-- In the bounded queue of the specification the values popped so far, followed by
the resident items, are the values pushed so far, in push order. -/
theorem fifoBounded_order (cap : Nat) :
    ∀ (ops : List Op) (l l1 : List Byte) (outs outs1 : List (Option Byte)),
      fifoBounded cap ops l outs = .done l1 outs1 →
        poppedValues outs1 ++ l1 = poppedValues outs ++ l ++ pushedValues ops
  | [], l, l1, outs, outs1, h => by
    simp only [fifoBounded, Outcome.done.injEq] at h
    obtain ⟨rfl, rfl⟩ := h
    simp [pushedValues]
  | .push v :: ops, l, l1, outs, outs1, h => by
    simp only [fifoBounded] at h
    split at h
    · cases h
    · rw [fifoBounded_order cap ops _ l1 outs outs1 h]
      simp [pushedValues]
  | .pop :: ops, [], l1, outs, outs1, h => by
    have hpv : poppedValues (outs ++ [none]) = poppedValues outs := by
      simp [poppedValues_append, poppedValues]
    simp only [fifoBounded] at h
    rw [fifoBounded_order cap ops _ l1 _ outs1 h, hpv]
    simp [pushedValues]
  | .pop :: ops, x :: l, l1, outs, outs1, h => by
    have hpv : poppedValues (outs ++ [some x]) = poppedValues outs ++ [x] := by
      simp [poppedValues_append, poppedValues]
    simp only [fifoBounded] at h
    rw [fifoBounded_order cap ops _ l1 _ outs1 h, hpv]
    simp [pushedValues]

/-- C2: for every capacity `N ≥ 2` and retry count `R ≥ 1`, every single-threaded
sequence of push and pop calls on a fresh `FixedSizeLockQueue<N>` behaves as the
bounded first-in first-out list with `N - 1` usable slots: a push appends at the back
(and waits exactly when `N - 1` items are resident), a pop on a non-empty queue
returns `true` with the oldest item and removes it, a pop on an empty queue returns
`false`; hence in every completed run the values of the successful pops, followed by
the items still resident, are the pushed values in push order, whatever the ring
indices wrapped around. -/
theorem C2_fixedLock_fifo (N : Nat) (config : QueueConfig) (garbage : Int) (mem : Nat → Byte)
    (ops : List Op) (hN : 2 ≤ N) (hR : 1 ≤ config.retries) :
    (FixedSizeLockQueue.run N ops (FixedSizeLockQueue.construct config garbage mem) []).mapState
          (FixedSizeLockQueue.contents N)
        = fifoBounded (N - 1) ops [] [] ∧
      ∀ s outs, FixedSizeLockQueue.run N ops (FixedSizeLockQueue.construct config garbage mem) []
          = .done s outs →
        poppedValues outs ++ FixedSizeLockQueue.contents N s = pushedValues ops := by
  have href := FixedSizeLockQueue.run_refines_fixedLock ops (FixedSizeLockQueue.construct config garbage mem) []
    (FixedSizeLockQueue.construct_inv_fixedLock hN config garbage mem) hR
  have hnil : FixedSizeLockQueue.contents N (FixedSizeLockQueue.construct config garbage mem) = [] := by
    simp [FixedSizeLockQueue.contents, FixedSizeLockQueue.construct, FixedSizeLockQueue.size]
  rw [hnil] at href
  refine ⟨href, fun s outs hrun => ?_⟩
  rw [hrun] at href
  simpa [poppedValues] using fifoBounded_order (N - 1) ops [] _ [] outs href.symm

/-- Witness for C2: capacity 3, two retries, a run that wraps both indices. -/
theorem C2_fixedLock_fifo_witness :
    2 ≤ 3 ∧ (1 : Int) ≤ 2 ∧
      (FixedSizeLockQueue.run 3
          [.push 3, .push 4, .pop, .pop, .pop, .push 9, .push 8, .pop]
          (FixedSizeLockQueue.construct { retries := 2 } 0 (fun _ => 0)) []).mapState
          (FixedSizeLockQueue.contents 3)
        = .done [8] [some 3, some 4, none, some 9] :=
  ⟨by decide, by decide,
    (C2_fixedLock_fifo 3 { retries := 2 } 0 (fun _ => 0)
      [.push 3, .push 4, .pop, .pop, .pop, .push 9, .push 8, .pop]
      (by decide) (by decide)).1.trans rfl⟩

/-- For capacity `N ≥ 2`: in every state reached from a fresh `FixedSizeLockQueue<N>`
by completed calls, push writes and returns exactly when `size() < N - 1`, and with
`size() = N - 1` it waits in the unchanged state. -/
theorem fixedLock_backpressure_of_two_le (N : Nat) (config : QueueConfig) (garbage : Int)
    (mem : Nat → Byte) (ops : List Op) (s : FixedSizeLockQueue) (outs : List (Option Byte))
    (v : Byte) (hN : 2 ≤ N)
    (hrun : FixedSizeLockQueue.run N ops (FixedSizeLockQueue.construct config garbage mem) []
      = .done s outs) :
    ((∃ s1, FixedSizeLockQueue.push N s v = .done s1 ()
          ∧ s1.data = Function.update s.data s.qr v)
        ↔ FixedSizeLockQueue.size N s < N - 1) ∧
      (FixedSizeLockQueue.size N s = N - 1 → FixedSizeLockQueue.push N s v = .waits s) := by
  obtain ⟨hinv, _⟩ := FixedSizeLockQueue.run_inv_fixedLock ops _ s [] outs
    (FixedSizeLockQueue.construct_inv_fixedLock hN config garbage mem) hrun
  refine ⟨⟨fun ⟨s1, hp, _⟩ => ?_, fun hroom => ?_⟩, FixedSizeLockQueue.push_waits hinv v⟩
  · by_contra hfull
    have hlt := hinv.size_lt
    rw [FixedSizeLockQueue.push_waits hinv v (by omega)] at hp
    cases hp
  · obtain ⟨s1, hp, _, _, _, _, hd⟩ := FixedSizeLockQueue.push_done hinv v hroom
    exact ⟨s1, hp, hd⟩

/-- For capacity `N ≥ 2`: in every state reached from a fresh `FixedSizeLockQueue<N>`
by completed calls, `size()` is the number of pushes minus the number of successful
pops, and it is at most `N - 1`. -/
theorem fixedLock_bounded_of_two_le (N : Nat) (config : QueueConfig) (garbage : Int)
    (mem : Nat → Byte) (ops : List Op) (s : FixedSizeLockQueue) (outs : List (Option Byte))
    (hN : 2 ≤ N)
    (hrun : FixedSizeLockQueue.run N ops (FixedSizeLockQueue.construct config garbage mem) []
      = .done s outs) :
    FixedSizeLockQueue.size N s = pushCount ops - (poppedValues outs).length ∧
      FixedSizeLockQueue.size N s ≤ N - 1 := by
  obtain ⟨hinv, hcount⟩ := FixedSizeLockQueue.run_inv_fixedLock ops _ s [] outs
    (FixedSizeLockQueue.construct_inv_fixedLock hN config garbage mem) hrun
  have hlt := hinv.size_lt
  have h0 : FixedSizeLockQueue.size N (FixedSizeLockQueue.construct config garbage mem) = 0 := by
    simp [FixedSizeLockQueue.construct, FixedSizeLockQueue.size]
  simp only [h0, poppedValues, List.length_nil] at hcount
  omega

/-- C7 (defect at capacity 1): on a fresh `FixedSizeLockQueue<1>` `size()` is
`0 = N - 1`, so the claim has push wait; the constructor however leaves
`is_full = false`, and `push(7)` writes `data[0]`, returns, and only then raises the
flag. -/
theorem C7_capacity_one_push_writes_when_full :
    FixedSizeLockQueue.size 1 (FixedSizeLockQueue.construct {} 0 (fun _ => 0)) = 1 - 1 ∧
      (FixedSizeLockQueue.push 1 (FixedSizeLockQueue.construct {} 0 (fun _ => 0)) 7).mapState
          (fun s => (s.data 0, s.ql, s.qr, s.is_full))
        = .done (7, 0, 0, true) () := by
  constructor
  · decide
  · rfl

/-- C9 (defect at capacity 1): on a fresh `FixedSizeLockQueue<1>` the call `push(7)`
completes, so one item is pushed and not popped while `N - 1 = 0`; `size()` returns `0`
for that state, and the following pop returns `false`: the item is never handed out. -/
theorem C9_capacity_one_resident_exceeds :
    (FixedSizeLockQueue.run 1 [.push 7]
          (FixedSizeLockQueue.construct {} 0 (fun _ => 0)) []).mapState
          (FixedSizeLockQueue.size 1)
        = .done 0 [] ∧
      pushCount [.push 7] - (poppedValues []).length = 1 ∧
      (FixedSizeLockQueue.run 1 [.push 7, .pop]
          (FixedSizeLockQueue.construct {} 0 (fun _ => 0)) []).value? = some [none] := by
  refine ⟨rfl, rfl, rfl⟩

/-! ### The ring of `FixedSizeNoLockQueue` -/

namespace FixedSizeNoLockQueue

theorem mod_ne_of_lt {N c d : Nat} (h : c < d) (hd : d < c + N) : c % N ≠ d % N := by
  intro heq
  have h0 : (c + 0) % N = (c + (d - c)) % N := by
    rw [Nat.add_zero, show c + (d - c) = d by omega]
    exact heq
  have := FixedSizeLockQueue.ring_index_inj (by omega) (by omega) h0
  omega

theorem construct_inv_fixedNoLock (N : Nat) (config : QueueConfig) (garbage : Int)
    (mem : Nat → DataWithRef) (hmem : ∀ i, (mem i).data = 0) :
    Inv N (construct config garbage mem) :=
  ⟨Nat.le_refl _, Nat.le_add_right _ _, fun i _ _ => hmem i⟩

theorem construct_occupied (N : Nat) (config : QueueConfig) (garbage : Int)
    (mem : Nat → DataWithRef) : Occupied N (construct config garbage mem) := by
  intro c h1 h2
  simp only [construct] at h1 h2
  omega

theorem Inv.back_empty {N : Nat} {q : FixedSizeNoLockQueue} (h : Inv N q) (hN : 0 < N)
    (hroom : q.qr < q.ql + N) : (q.data (q.qr % N)).data = 0 :=
  h.free _ (Nat.mod_lt _ hN) (fun _ h1 h2 => mod_ne_of_lt h2 (by omega))

theorem pushLoop_full {N : Nat} (hN : 0 < N) (q : FixedSizeNoLockQueue) (v : Byte)
    (fuel : Nat) (hfull : q.qr = q.ql + N) : pushLoop N v (fuel + 1) q = .waits q := by
  have h0 : N ≠ 0 := by omega
  simp [pushLoop, hfull, h0]

theorem pushLoop_room {N : Nat} {q : FixedSizeNoLockQueue} (h : Inv N q) (hN : 0 < N)
    (hroom : q.qr < q.ql + N) (v : Byte) (fuel : Nat) :
    pushLoop N v (fuel + 1) q
      = .done { q with data := Function.update q.data (q.qr % N)
                          ⟨v, wrap32 ((q.data (q.qr % N)).ref + 1)⟩,
                       qr := q.qr + 1 } () := by
  have hne : q.qr ≠ q.ql + N := by omega
  have h0 : N ≠ 0 := by omega
  simp [pushLoop, h0, hne, h.back_empty hN hroom, casSlot, casQr]

theorem pushed_inv {N : Nat} {q : FixedSizeNoLockQueue} (h : Inv N q)
    (hroom : q.qr < q.ql + N) (d : DataWithRef) :
    Inv N { q with data := Function.update q.data (q.qr % N) d, qr := q.qr + 1 } := by
  have hle := h.le
  refine ⟨by simp only; omega, by simp only; omega, fun i hi hout => ?_⟩
  simp only at hout ⊢
  have hne : i ≠ q.qr % N := fun he => hout q.qr hle (by omega) he.symm
  rw [Function.update_noteq hne]
  exact h.free i hi (fun c h1 h2 => hout c h1 (by omega))

theorem pushed_occupied {N : Nat} {q : FixedSizeNoLockQueue}
    (hocc : Occupied N q) (hroom : q.qr < q.ql + N) (v : Byte) (hv : v ≠ 0) (r : Int) :
    Occupied N { q with data := Function.update q.data (q.qr % N) ⟨v, r⟩, qr := q.qr + 1 } := by
  intro c h1 h2
  simp only at h1 h2 ⊢
  rcases Nat.lt_or_ge c q.qr with hc | hc
  · rw [Function.update_noteq (mod_ne_of_lt hc (by omega))]
    exact hocc c h1 hc
  · have : c = q.qr := by omega
    rw [this, Function.update_same]
    exact hv

theorem pushed_contents {N : Nat} {q : FixedSizeNoLockQueue} (h : Inv N q)
    (hroom : q.qr < q.ql + N) (v : Byte) (r : Int) :
    contents N { q with data := Function.update q.data (q.qr % N) ⟨v, r⟩, qr := q.qr + 1 }
      = contents N q ++ [v] := by
  have hle := h.le
  unfold contents
  simp only
  rw [show q.qr + 1 - q.ql = (q.qr - q.ql) + 1 by omega, List.range_succ, List.map_append]
  congr 1
  · apply List.map_congr_left
    intro i hi
    have hi' : i < q.qr - q.ql := List.mem_range.1 hi
    rw [Function.update_noteq (mod_ne_of_lt (by omega) (by omega))]
  · simp only [List.map_cons, List.map_nil]
    rw [show q.ql + (q.qr - q.ql) = q.qr by omega, Function.update_same]

theorem popLoop_empty_fixedNoLock (N : Nat) (hN : 0 < N) (q : FixedSizeNoLockQueue)
    (fuel : Nat) (hempty : q.ql = q.qr) : popLoop N (fuel + 1) q = .done q none := by
  have h0 : N ≠ 0 := by omega
  simp [popLoop, h0, hempty]

theorem popRetry_empty_fixedNoLock (N fuel : Nat) (hN : 0 < N) (hfuel : 1 ≤ fuel)
    (q : FixedSizeNoLockQueue) (val : Byte) (hempty : q.ql = q.qr) :
    ∀ n, popRetry N fuel val n q = .done q (false, val)
  | 0 => rfl
  | n + 1 => by
    obtain ⟨f, rfl⟩ : ∃ f, fuel = f + 1 := ⟨fuel - 1, by omega⟩
    simp only [popRetry, popLoop_empty_fixedNoLock N hN q f hempty]
    exact popRetry_empty_fixedNoLock N (f + 1) hN hfuel q val hempty n

theorem popLoop_front {N : Nat} {q : FixedSizeNoLockQueue} (hN : 0 < N)
    (hsome : q.ql ≠ q.qr) (hfront : (q.data (q.ql % N)).data ≠ 0) (fuel : Nat) :
    popLoop N (fuel + 1) q
      = .done { q with data := Function.update q.data (q.ql % N)
                          ⟨0, wrap32 ((q.data (q.ql % N)).ref + 1)⟩,
                       ql := q.ql + 1 } (some (q.data (q.ql % N)).data) := by
  have h0 : N ≠ 0 := by omega
  simp [popLoop, h0, hsome, hfront, casSlot, casQl]

theorem popped_inv_fixedNoLock {N : Nat} {q : FixedSizeNoLockQueue} (h : Inv N q)
    (hsome : q.ql ≠ q.qr) (r : Int) :
    Inv N { q with data := Function.update q.data (q.ql % N) ⟨0, r⟩, ql := q.ql + 1 } := by
  have hle := h.le
  have hb := h.bound
  refine ⟨by simp only; omega, by simp only; omega, fun i hi hout => ?_⟩
  simp only at hout ⊢
  by_cases hi0 : i = q.ql % N
  · rw [hi0, Function.update_same]
  · rw [Function.update_noteq hi0]
    refine h.free i hi (fun c h1 h2 => ?_)
    rcases Nat.eq_or_lt_of_le h1 with he | hlt
    · rw [← he]; exact fun hc => hi0 hc.symm
    · exact hout c hlt h2

theorem popped_occupied {N : Nat} {q : FixedSizeNoLockQueue} (h : Inv N q)
    (hocc : Occupied N q) (d : DataWithRef) :
    Occupied N { q with data := Function.update q.data (q.ql % N) d, ql := q.ql + 1 } := by
  intro c h1 h2
  simp only at h1 h2 ⊢
  have hb := h.bound
  rw [Function.update_noteq (mod_ne_of_lt (show q.ql < c by omega) (by omega)).symm]
  exact hocc c (by omega) h2

theorem popped_contents {N : Nat} {q : FixedSizeNoLockQueue} (h : Inv N q)
    (hsome : q.ql ≠ q.qr) (d : DataWithRef) :
    contents N q
      = (q.data (q.ql % N)).data ::
          contents N { q with data := Function.update q.data (q.ql % N) d, ql := q.ql + 1 } := by
  have hle := h.le
  have hb := h.bound
  unfold contents
  simp only
  rw [show q.qr - q.ql = (q.qr - (q.ql + 1)) + 1 by omega, List.range_succ_eq_map,
    List.map_cons, List.map_map]
  congr 1
  apply List.map_congr_left
  intro i hi
  have hi' : i < q.qr - (q.ql + 1) := List.mem_range.1 hi
  simp only [Function.comp]
  rw [show q.ql + Nat.succ i = q.ql + 1 + i by omega,
    Function.update_noteq (mod_ne_of_lt (show q.ql < q.ql + 1 + i by omega) (by omega)).symm]

theorem skipped_inv {N : Nat} {q : FixedSizeNoLockQueue} (h : Inv N q)
    (hsome : q.ql ≠ q.qr) (hzero : (q.data (q.ql % N)).data = 0) :
    Inv N { q with ql := q.ql + 1 } := by
  have hle := h.le
  have hb := h.bound
  refine ⟨by simp only; omega, by simp only; omega, fun i hi hout => ?_⟩
  simp only at hout ⊢
  by_cases hi0 : i = q.ql % N
  · rw [hi0]; exact hzero
  · refine h.free i hi (fun c h1 h2 => ?_)
    rcases Nat.eq_or_lt_of_le h1 with he | hlt
    · rw [← he]; exact fun hc => hi0 hc.symm
    · exact hout c hlt h2

/-- From a state satisfying the invariant, `push` waits in that state when the ring
is full and otherwise claims the slot at `qr` in its first iteration. -/
theorem push_cases {N : Nat} {q : FixedSizeNoLockQueue} (h : Inv N q) (hN : 0 < N)
    (v : Byte) (fuel : Nat) :
    (q.qr = q.ql + N ∧ push N (fuel + 1) q v = .waits q) ∨
      (q.qr < q.ql + N ∧
        push N (fuel + 1) q v
          = .done { q with data := Function.update q.data (q.qr % N)
                              ⟨v, wrap32 ((q.data (q.qr % N)).ref + 1)⟩,
                           qr := q.qr + 1 } ()) := by
  rcases Nat.eq_or_lt_of_le h.bound with hfull | hroom
  · exact Or.inl ⟨hfull, pushLoop_full hN q v fuel hfull⟩
  · have hle := h.le
    exact Or.inr ⟨hroom, pushLoop_room h hN hroom v fuel⟩

theorem popLoop_inv (N : Nat) (hN : 0 < N) :
    ∀ fuel q, Inv N q → (popLoop N fuel q).Forall (fun q1 => Inv N q1)
  | 0, _, _ => trivial
  | fuel + 1, q, h => by
    by_cases hempty : q.ql = q.qr
    · rw [popLoop_empty_fixedNoLock N hN q fuel hempty]
      exact h
    · by_cases hfront : (q.data (q.ql % N)).data = 0
      · have hstep : popLoop N (fuel + 1) q = popLoop N fuel { q with ql := q.ql + 1 } := by
          have h0 : N ≠ 0 := by omega
          simp [popLoop, h0, hempty, hfront, casQl]
        rw [hstep]
        exact popLoop_inv N hN fuel _ (skipped_inv h hempty hfront)
      · rw [popLoop_front hN hempty hfront fuel]
        exact popped_inv_fixedNoLock h hempty _

theorem popRetry_inv (N fuel : Nat) (hN : 0 < N) (val : Byte) :
    ∀ n q, Inv N q → (popRetry N fuel val n q).Forall (fun q1 => Inv N q1)
  | 0, _, h => h
  | n + 1, q, h => by
    unfold popRetry
    have hl := popLoop_inv N hN fuel q h
    split
    · next q1 v heq => rw [heq] at hl; exact hl
    · next q1 heq =>
      rw [heq] at hl
      exact popRetry_inv N fuel hN val n q1 hl
    · next q1 heq => rw [heq] at hl; exact hl
    · trivial
    · trivial

/-- Every completed run keeps the invariant. -/
theorem run_inv_fixedNoLock (N fuel : Nat) (hN : 0 < N) :
    ∀ (ops : List Op) (q q1 : FixedSizeNoLockQueue) (outs outs1 : List (Option Byte)),
      Inv N q → run N fuel ops q outs = .done q1 outs1 → Inv N q1
  | [], q, q1, outs, outs1, h, hrun => by
    simp only [run, Outcome.done.injEq] at hrun
    obtain ⟨rfl, rfl⟩ := hrun
    exact h
  | .push v :: ops, q, q1, outs, outs1, h, hrun => by
    cases fuel with
    | zero => simp [run, push, pushLoop] at hrun
    | succ f =>
      rcases push_cases h hN v f with ⟨_, hp⟩ | ⟨hroom, hp⟩
      · simp [run, hp] at hrun
      · simp only [run, hp] at hrun
        exact run_inv_fixedNoLock N (f + 1) hN ops _ q1 outs outs1 (pushed_inv h hroom _) hrun
  | .pop :: ops, q, q1, outs, outs1, h, hrun => by
    have hp := popRetry_inv N fuel hN 0 q.config.retries.toNat q h
    simp only [run, pop] at hrun
    split at hrun
    · next q2 v heq =>
      rw [heq] at hp
      exact run_inv_fixedNoLock N fuel hN ops q2 q1 _ outs1 hp hrun
    · next q2 v heq =>
      rw [heq] at hp
      exact run_inv_fixedNoLock N fuel hN ops q2 q1 _ outs1 hp hrun
    · cases hrun
    · cases hrun
    · cases hrun

/-- With every window slot occupied, a pop either runs out of budget, or fails on the
empty ring and changes nothing, or takes the value at `ql`. -/
theorem pop_occupied_cases {N : Nat} {q : FixedSizeNoLockQueue} (hN : 0 < N)
    (hocc : Occupied N q) (hle : q.ql ≤ q.qr) (fuel : Nat) (val : Byte) :
    pop N fuel q val = .fuel ∨ pop N fuel q val = .done q (false, val) ∨
      (q.ql ≠ q.qr ∧
        pop N fuel q val
          = .done { q with data := Function.update q.data (q.ql % N)
                              ⟨0, wrap32 ((q.data (q.ql % N)).ref + 1)⟩,
                           ql := q.ql + 1 } (true, (q.data (q.ql % N)).data)) := by
  unfold pop
  cases hn : q.config.retries.toNat with
  | zero => exact Or.inr (Or.inl rfl)
  | succ n =>
    cases fuel with
    | zero => exact Or.inl rfl
    | succ f =>
      by_cases hempty : q.ql = q.qr
      · exact Or.inr (Or.inl (popRetry_empty_fixedNoLock N (f + 1) hN (by omega) q val hempty _))
      · refine Or.inr (Or.inr ⟨hempty, ?_⟩)
        have hfront := hocc q.ql (Nat.le_refl _) (by omega)
        simp only [popRetry, popLoop_front hN hempty hfront f]

theorem pop_nonempty_fixedNoLock {N : Nat} {q : FixedSizeNoLockQueue} (hN : 0 < N)
    (hocc : Occupied N q) (hle : q.ql ≤ q.qr) (hsome : q.ql ≠ q.qr) (hR : 1 ≤ q.config.retries) (fuel : Nat)
    (val : Byte) :
    pop N (fuel + 1) q val
      = .done { q with data := Function.update q.data (q.ql % N)
                          ⟨0, wrap32 ((q.data (q.ql % N)).ref + 1)⟩,
                       ql := q.ql + 1 } (true, (q.data (q.ql % N)).data) := by
  obtain ⟨n, hn⟩ : ∃ n, q.config.retries.toNat = n + 1 :=
    ⟨q.config.retries.toNat - 1, by omega⟩
  have hfront := hocc q.ql (Nat.le_refl _) (by omega)
  simp only [pop, hn, popRetry, popLoop_front hN hsome hfront fuel]

/-- With only non-zero values pushed, every completed run keeps the window occupied
and the cursor difference counts the pushes minus the successful pops. -/
theorem run_occupied (N fuel : Nat) (hN : 0 < N) :
    ∀ (ops : List Op) (q q1 : FixedSizeNoLockQueue) (outs outs1 : List (Option Byte)),
      Inv N q → Occupied N q → (∀ v ∈ pushedValues ops, v ≠ 0) →
        run N fuel ops q outs = .done q1 outs1 →
          Occupied N q1 ∧
            (q1.qr - q1.ql) + (poppedValues outs1).length
              = (q.qr - q.ql) + (poppedValues outs).length + pushCount ops
  | [], q, q1, outs, outs1, _, hocc, _, hrun => by
    simp only [run, Outcome.done.injEq] at hrun
    obtain ⟨rfl, rfl⟩ := hrun
    exact ⟨hocc, by simp [pushCount]⟩
  | .push v :: ops, q, q1, outs, outs1, h, hocc, hnz, hrun => by
    have hle := h.le
    cases fuel with
    | zero => simp [run, push, pushLoop] at hrun
    | succ f =>
      rcases push_cases h hN v f with ⟨_, hp⟩ | ⟨hroom, hp⟩
      · simp [run, hp] at hrun
      · simp only [run, hp] at hrun
        have hv : v ≠ 0 := hnz v (by simp [pushedValues])
        obtain ⟨ho, hcount⟩ := run_occupied N (f + 1) hN ops _ q1 outs outs1
          (pushed_inv h hroom _) (pushed_occupied hocc hroom v hv _)
          (fun w hw => hnz w (by simp [pushedValues, hw])) hrun
        refine ⟨ho, ?_⟩
        simp only [pushCount] at hcount ⊢
        omega
  | .pop :: ops, q, q1, outs, outs1, h, hocc, hnz, hrun => by
    have hle := h.le
    rcases pop_occupied_cases hN hocc hle fuel 0 with hp | hp | ⟨hsome, hp⟩
    · simp [run, hp] at hrun
    · simp only [run, hp] at hrun
      obtain ⟨ho, hcount⟩ := run_occupied N fuel hN ops q q1 _ outs1 h hocc
        (fun w hw => hnz w (by simpa [pushedValues] using hw)) hrun
      refine ⟨ho, ?_⟩
      rw [poppedValues_append] at hcount
      simp only [poppedValues, List.append_nil, pushCount] at hcount ⊢
      omega
    · simp only [run, hp] at hrun
      obtain ⟨ho, hcount⟩ := run_occupied N fuel hN ops _ q1 _ outs1
        (popped_inv_fixedNoLock h hsome _) (popped_occupied h hocc _)
        (fun w hw => hnz w (by simpa [pushedValues] using hw)) hrun
      refine ⟨ho, ?_⟩
      rw [poppedValues_append] at hcount
      simp only [poppedValues, List.length_append, List.length_singleton, pushCount]
        at hcount ⊢
      omega

end FixedSizeNoLockQueue

/-! ### `FixedSizeNoLockQueue`: capacity and conservation -/

namespace FixedSizeNoLockQueue

theorem pushLoop_cursors (N : Nat) (v : Byte) :
    ∀ fuel q, Cursors N q → (pushLoop N v fuel q).Forall (fun q1 => Cursors N q1)
  | 0, _, _ => trivial
  | fuel + 1, q, h => by
    unfold pushLoop
    dsimp only
    split_ifs with h0 h1 h2 h3
    · trivial
    · exact pushLoop_cursors N v fuel q h
    · exact h
    · simp only [casSlot, if_true, casQr, Outcome.Forall, Cursors]
      have h4 := h.1
      have h5 := h.2
      omega
    · refine pushLoop_cursors N v fuel _ ?_
      simp only [casQr, if_true, Cursors]
      have h4 := h.1
      have h5 := h.2
      omega

theorem popLoop_cursors (N : Nat) :
    ∀ fuel q, Cursors N q → (popLoop N fuel q).Forall (fun q1 => Cursors N q1)
  | 0, _, _ => trivial
  | fuel + 1, q, h => by
    unfold popLoop
    dsimp only
    split_ifs with h0 h1 h2 h3
    · trivial
    · exact popLoop_cursors N fuel q h
    · exact h
    · simp only [casSlot, if_true, casQl, Outcome.Forall, Cursors]
      have h4 := h.1
      have h5 := h.2
      omega
    · refine popLoop_cursors N fuel _ ?_
      simp only [casQl, if_true, Cursors]
      have h4 := h.1
      have h5 := h.2
      omega

theorem popRetry_cursors (N fuel : Nat) (val : Byte) :
    ∀ n q, Cursors N q → (popRetry N fuel val n q).Forall (fun q1 => Cursors N q1)
  | 0, _, h => h
  | n + 1, q, h => by
    unfold popRetry
    have hl := popLoop_cursors N fuel q h
    split
    · next q1 v heq => rw [heq] at hl; exact hl
    · next q1 heq =>
      rw [heq] at hl
      exact popRetry_cursors N fuel val n q1 hl
    · next q1 heq => rw [heq] at hl; exact hl
    · trivial
    · trivial

/-- Whatever the slots hold, every completed run keeps the cursors in order and at
most `N` apart. -/
theorem run_cursors (N fuel : Nat) :
    ∀ (ops : List Op) (q q1 : FixedSizeNoLockQueue) (outs outs1 : List (Option Byte)),
      Cursors N q → run N fuel ops q outs = .done q1 outs1 → Cursors N q1
  | [], q, q1, outs, outs1, h, hrun => by
    simp only [run, Outcome.done.injEq] at hrun
    obtain ⟨rfl, rfl⟩ := hrun
    exact h
  | .push v :: ops, q, q1, outs, outs1, h, hrun => by
    have hp := pushLoop_cursors N v fuel q h
    simp only [run, push] at hrun
    split at hrun
    · next q2 _ heq =>
      rw [heq] at hp
      exact run_cursors N fuel ops q2 q1 outs outs1 hp hrun
    · cases hrun
    · cases hrun
    · cases hrun
  | .pop :: ops, q, q1, outs, outs1, h, hrun => by
    have hp := popRetry_cursors N fuel 0 q.config.retries.toNat q h
    simp only [run, pop] at hrun
    split at hrun
    · next q2 v heq =>
      rw [heq] at hp
      exact run_cursors N fuel ops q2 q1 _ outs1 hp hrun
    · next q2 v heq =>
      rw [heq] at hp
      exact run_cursors N fuel ops q2 q1 _ outs1 hp hrun
    · cases hrun
    · cases hrun
    · cases hrun

end FixedSizeNoLockQueue

/-- C8 (as stated, refuted): on a fresh `FixedSizeNoLockQueue<2>` whose slots happen
to hold zeros, two pushes complete and leave `qr - ql = 2`, which exceeds `N - 1 = 1`.
And on a fresh ring whose uninitialised slot 0 holds `{170, -1431655766}`, the single
push of `7` steps over that slot and leaves `qr - ql = 2` with one item pushed. -/
theorem C8_counterexample_two_resident :
    (FixedSizeNoLockQueue.run 2 1 [.push 1, .push 1]
          (FixedSizeNoLockQueue.construct {} 0 (fun _ => ⟨0, 0⟩)) []).mapState
          (fun q => q.qr - q.ql)
        = .done 2 [] ∧
      (FixedSizeNoLockQueue.run 2 2 [.push 7]
          (FixedSizeNoLockQueue.construct {} 0
            (Function.update (fun _ => ⟨0, 0⟩) 0 ⟨170, -1431655766⟩)) []).mapState
          (fun q => (q.qr - q.ql, (q.data 0).data, (q.data 1).data))
        = .done (2, 170, 7) [] ∧
      pushCount [.push 7] - (poppedValues []).length = 1 := by
  refine ⟨rfl, rfl, rfl⟩

/-- C8 (amended): for every capacity `N ≥ 1`, in every state reached from a fresh
`FixedSizeNoLockQueue<N>`, whatever its uninitialised slots hold, by completed push and
pop calls, `ql ≤ qr` and the cursor difference `qr - ql` never exceeds `N`; and when
the slots all start with `data == 0` and every pushed value is non-zero, `qr - ql` is
the number of pushes minus the number of successful pops. -/
theorem C8_fixedNoLock_bounded (N fuel : Nat) (config : QueueConfig) (garbage : Int)
    (mem : Nat → DataWithRef) (ops : List Op) (q : FixedSizeNoLockQueue)
    (outs : List (Option Byte)) (hN : 1 ≤ N)
    (hrun : FixedSizeNoLockQueue.run N fuel ops
      (FixedSizeNoLockQueue.construct config garbage mem) [] = .done q outs) :
    q.ql ≤ q.qr ∧ q.qr - q.ql ≤ N ∧
      ((∀ i, (mem i).data = 0) → (∀ v ∈ pushedValues ops, v ≠ 0) →
        q.qr - q.ql = pushCount ops - (poppedValues outs).length) := by
  have hcur := FixedSizeNoLockQueue.run_cursors N fuel ops _ q [] outs
    (show FixedSizeNoLockQueue.Cursors N (FixedSizeNoLockQueue.construct config garbage mem)
      from ⟨Nat.le_refl _, Nat.le_add_right _ _⟩) hrun
  have hle := hcur.1
  have hb := hcur.2
  refine ⟨hle, by omega, fun hmem hnz => ?_⟩
  obtain ⟨_, hcount⟩ := FixedSizeNoLockQueue.run_occupied N fuel (by omega) ops _ q [] outs
    (FixedSizeNoLockQueue.construct_inv_fixedNoLock N config garbage mem hmem)
    (FixedSizeNoLockQueue.construct_occupied N config garbage mem) hnz hrun
  simp only [FixedSizeNoLockQueue.construct, poppedValues, List.length_nil] at hcount
  omega

/-- Witness for C8: capacity 2, slot 0 dirty, a push that steps over it, a pop that
returns what it held, and a push into the emptied slot. -/
theorem C8_fixedNoLock_bounded_witness :
    1 ≤ 2 ∧
      (FixedSizeNoLockQueue.run 2 2 [.push 5, .pop, .push 6]
          (FixedSizeNoLockQueue.construct {} 0
            (Function.update (fun _ => ⟨0, 0⟩) 0 ⟨170, -1431655766⟩)) []
        = .done
            { FixedSizeNoLockQueue.construct {} 0 (fun _ => ⟨0, 0⟩) with
              data := Function.update (Function.update (Function.update
                (Function.update (fun _ => ⟨0, 0⟩) 0 ⟨170, -1431655766⟩)
                  1 ⟨5, 1⟩) 0 ⟨0, -1431655765⟩) 0 ⟨6, -1431655764⟩
              ql := 1
              qr := 3 }
            [some 170]) ∧
      (3 : Nat) - 1 ≤ 2 :=
  have hrun : FixedSizeNoLockQueue.run 2 2 [.push 5, .pop, .push 6]
      (FixedSizeNoLockQueue.construct {} 0
        (Function.update (fun _ => ⟨0, 0⟩) 0 ⟨170, -1431655766⟩)) []
        = .done
            { FixedSizeNoLockQueue.construct {} 0 (fun _ => ⟨0, 0⟩) with
              data := Function.update (Function.update (Function.update
                (Function.update (fun _ => ⟨0, 0⟩) 0 ⟨170, -1431655766⟩)
                  1 ⟨5, 1⟩) 0 ⟨0, -1431655765⟩) 0 ⟨6, -1431655764⟩
              ql := 1
              qr := 3 }
            [some 170] := rfl
  ⟨by decide, hrun,
    (C8_fixedNoLock_bounded 2 2 {} 0 _ [.push 5, .pop, .push 6] _ _ (by decide)
      hrun).2.1⟩

/-- Pushing non-zero values that fit into the ring appends them to its contents. -/
theorem FixedSizeNoLockQueue.run_pushes_fixedNoLock (N fuel : Nat) (hN : 0 < N) :
    ∀ (xs : List Byte) (q : FixedSizeNoLockQueue) (outs : List (Option Byte)),
      FixedSizeNoLockQueue.Inv N q → FixedSizeNoLockQueue.Occupied N q →
        (∀ x ∈ xs, x ≠ 0) → q.qr + xs.length ≤ q.ql + N →
          ∃ q1, FixedSizeNoLockQueue.run N (fuel + 1) (xs.map Op.push) q outs = .done q1 outs
            ∧ FixedSizeNoLockQueue.Inv N q1 ∧ FixedSizeNoLockQueue.Occupied N q1
            ∧ FixedSizeNoLockQueue.contents N q1 = FixedSizeNoLockQueue.contents N q ++ xs
            ∧ q1.toIQueue = q.toIQueue
  | [], q, outs, h, hocc, _, _ => ⟨q, rfl, h, hocc, by simp, rfl⟩
  | x :: xs, q, outs, h, hocc, hnz, hfit => by
    have hroom : q.qr < q.ql + N := by simp only [List.length_cons] at hfit; omega
    rcases FixedSizeNoLockQueue.push_cases h hN x fuel with ⟨hfull, _⟩ | ⟨_, hp⟩
    · omega
    · obtain ⟨q1, hrun, hinv, ho, hc, hq⟩ := FixedSizeNoLockQueue.run_pushes_fixedNoLock N fuel hN xs _ outs
        (FixedSizeNoLockQueue.pushed_inv h hroom ⟨x, wrap32 ((q.data (q.qr % N)).ref + 1)⟩)
        (FixedSizeNoLockQueue.pushed_occupied hocc hroom x (hnz x (by simp)) _)
        (fun y hy => hnz y (by simp [hy]))
        (by simp only [List.length_cons] at hfit ⊢; omega)
      refine ⟨q1, ?_, hinv, ho, ?_, hq⟩
      · simp only [List.map_cons, FixedSizeNoLockQueue.run, hp]
        exact hrun
      · rw [hc, FixedSizeNoLockQueue.pushed_contents h hroom]
        simp

/-- Draining a ring whose window is occupied returns its contents, oldest first. -/
theorem FixedSizeNoLockQueue.drain_contents (N fuel : Nat) (hN : 0 < N) :
    ∀ (k : Nat) (q : FixedSizeNoLockQueue) (acc : List Byte),
      FixedSizeNoLockQueue.Inv N q → FixedSizeNoLockQueue.Occupied N q →
        1 ≤ q.config.retries → (q.qr - q.ql) + 1 ≤ k →
          ∃ q1, FixedSizeNoLockQueue.drain N (fuel + 1) k q acc
              = .done q1 (acc ++ FixedSizeNoLockQueue.contents N q)
            ∧ q1.ql = q1.qr
  | 0, _, _, _, _, _, hk => by omega
  | k + 1, q, acc, h, hocc, hR, hk => by
    have hle := h.le
    by_cases hempty : q.ql = q.qr
    · refine ⟨q, ?_, hempty⟩
      have hp : FixedSizeNoLockQueue.pop N (fuel + 1) q 0 = .done q (false, 0) :=
        FixedSizeNoLockQueue.popRetry_empty_fixedNoLock N (fuel + 1) hN (by omega) q 0 hempty _
      have hc : FixedSizeNoLockQueue.contents N q = [] := by
        simp [FixedSizeNoLockQueue.contents, hempty]
      simp only [FixedSizeNoLockQueue.drain, hp, hc, List.append_nil]
    · have hp := FixedSizeNoLockQueue.pop_nonempty_fixedNoLock hN hocc hle hempty hR fuel 0
      obtain ⟨q1, hd, he⟩ := FixedSizeNoLockQueue.drain_contents N fuel hN k _
        (acc ++ [(q.data (q.ql % N)).data])
        (FixedSizeNoLockQueue.popped_inv_fixedNoLock h hempty (wrap32 ((q.data (q.ql % N)).ref + 1)))
        (FixedSizeNoLockQueue.popped_occupied h hocc _) hR (by simp only; omega)
      refine ⟨q1, ?_, he⟩
      simp only [FixedSizeNoLockQueue.drain, hp]
      rw [hd, FixedSizeNoLockQueue.popped_contents h hempty
        ⟨0, wrap32 ((q.data (q.ql % N)).ref + 1)⟩]
      simp

/-- C1 (as stated, refuted): pushing the single value `0` onto a fresh
`FixedSizeNoLockQueue<1>` and draining it yields no value at all: the slot written by
`push(0)` reads as empty, so pop skips it. -/
theorem C1_counterexample_zero_lost :
    (FixedSizeNoLockQueue.pushThenDrain 1 2 2
        (FixedSizeNoLockQueue.construct { retries := 1 } 0 (fun _ => ⟨0, 0⟩)) [0]).value?
        = some [] ∧
      ¬ (([] : List Byte).Perm [0]) := by
  constructor
  · rfl
  · simp

/-- C1 (amended): for every capacity `N ≥ 1`, every retry count `R ≥ 1` and every list
`xs` of non-zero byte values (each in 1..255) with length at most `N`, pushing `xs`
onto a fresh `FixedSizeNoLockQueue<N>` with all slots zero and `ql = qr = 0` (whatever
its uninitialised `thread_count` holds) and then calling pop until it returns `false`
completes (one loop iteration per call and `|xs| + 1` pops suffice) with the ring
drained, and the values of the successful pops are `xs` as a multiset (indeed in push
order). -/
theorem C1_fixedNoLock_conservation (N fuel k : Nat) (config : QueueConfig)
    (garbage : Int) (xs : List Byte) (hN : 1 ≤ N) (hR : 1 ≤ config.retries)
    (hnz : ∀ x ∈ xs, x ≠ 0) (hlen : xs.length ≤ N) (hfuel : 1 ≤ fuel)
    (hk : xs.length + 1 ≤ k) :
    ∃ q pops,
      FixedSizeNoLockQueue.pushThenDrain N fuel k
          (FixedSizeNoLockQueue.construct config garbage (fun _ => ⟨0, 0⟩)) xs
        = .done q pops
      ∧ q.ql = q.qr ∧ pops.Perm xs ∧ pops = xs := by
  obtain ⟨f, rfl⟩ : ∃ f, fuel = f + 1 := ⟨fuel - 1, by omega⟩
  have hN : 0 < N := by omega
  obtain ⟨q1, hrun, hinv, hocc, hc, hq⟩ := FixedSizeNoLockQueue.run_pushes_fixedNoLock N f hN xs
    (FixedSizeNoLockQueue.construct config garbage (fun _ => ⟨0, 0⟩)) []
    (FixedSizeNoLockQueue.construct_inv_fixedNoLock N config garbage _ (fun _ => rfl))
    (FixedSizeNoLockQueue.construct_occupied N config garbage _) hnz
    (by simp only [FixedSizeNoLockQueue.construct]; omega)
  have hc0 : FixedSizeNoLockQueue.contents N
      (FixedSizeNoLockQueue.construct config garbage (fun _ => ⟨0, 0⟩)) = [] := by
    simp [FixedSizeNoLockQueue.contents, FixedSizeNoLockQueue.construct]
  rw [hc0, List.nil_append] at hc
  have hsize : q1.qr - q1.ql = xs.length := by
    have := congrArg List.length hc
    simpa [FixedSizeNoLockQueue.contents] using this
  have hR1 : 1 ≤ q1.config.retries := by rw [hq]; exact hR
  obtain ⟨q2, hd, he⟩ := FixedSizeNoLockQueue.drain_contents N f hN k q1 [] hinv hocc hR1
    (by omega)
  refine ⟨q2, xs, ?_, he, List.Perm.refl _, rfl⟩
  simp only [FixedSizeNoLockQueue.pushThenDrain, hrun]
  rw [hd, hc, List.nil_append]

/-- Witness for C1: capacity 3, one retry, the values `[5, 6, 7]`. -/
theorem C1_fixedNoLock_conservation_witness :
    1 ≤ 3 ∧ (1 : Int) ≤ 1 ∧ (∀ x ∈ ([5, 6, 7] : List Byte), x ≠ 0) ∧
      ([5, 6, 7] : List Byte).length ≤ 3 ∧
      ∃ q pops,
        FixedSizeNoLockQueue.pushThenDrain 3 1 4
            (FixedSizeNoLockQueue.construct { retries := 1 } 0 (fun _ => ⟨0, 0⟩)) [5, 6, 7]
          = .done q pops
        ∧ q.ql = q.qr ∧ pops.Perm [5, 6, 7] ∧ pops = [5, 6, 7] :=
  ⟨by decide, by decide, by simp, by decide,
    C1_fixedNoLock_conservation 3 1 4 { retries := 1 } 0 [5, 6, 7]
      (by decide) (by decide) (by simp) (by decide) (by decide) (by decide)⟩

/-! ### The list of `DynamicNoLockQueue` -/

namespace DynamicNoLockQueue

theorem tagged_ptr_eq_self (a : tagged_ptr) : a.eq a = true := by
  simp [tagged_ptr.eq]

theorem tagged_ptr_ne_self (a : tagged_ptr) : a.ne a = false := by
  simp [tagged_ptr.ne]

theorem construct_inv_dynNoLock (config : QueueConfig) (garbage : Int) :
    Inv (construct config garbage) := by
  refine ⟨fun i nd hnd => ?_, ⟨0, rfl, rfl⟩, ⟨0, rfl, by simp [construct]⟩⟩
  cases i with
  | zero =>
    simp only [construct, List.getElem?_cons_zero, Option.some.injEq] at hnd
    subst hnd
    simp [construct, newNode]
  | succ i => simp [construct] at hnd

theorem set_same {α : Type} (l : List α) (i : Nat) (x : α) (h : l[i]? = some x) :
    l.set i x = l := by
  apply List.ext_getElem?
  intro n
  rw [List.getElem?_set]
  by_cases hin : i = n
  · subst hin
    rw [if_pos rfl, h]
    have : i < l.length := by
      by_contra hc
      rw [List.getElem?_eq_none (by omega)] at h
      cases h
    rw [if_pos this]
  · rw [if_neg hin]

/-- Following `next` from address `a` lists the payloads of the nodes from `a` on. -/
theorem payloads_eq_drop (heap : List node)
    (hlinks : ∀ i nd, heap[i]? = some nd →
      nd.next.ptr = if i + 1 < heap.length then some (i + 1) else none) :
    ∀ (k a : Nat), heap.length ≤ a + k →
      payloads heap k (if a < heap.length then some a else none)
        = (heap.map (fun nd => nd.data)).drop a
  | 0, a, hk => by
    rw [List.drop_eq_nil_of_le (by simpa using hk)]
    rfl
  | k + 1, a, hk => by
    by_cases ha : a < heap.length
    · have hget : heap[a]? = some heap[a] := List.getElem?_eq_getElem ha
      rw [if_pos ha]
      simp only [payloads, hget]
      have hd : (heap.map (fun nd => nd.data)).drop a
          = heap[a].data :: (heap.map (fun nd => nd.data)).drop (a + 1) := by
        rw [List.drop_eq_getElem_cons (by simpa using ha)]
        simp
      rw [hlinks a _ hget, payloads_eq_drop heap hlinks k (a + 1) (by omega), hd]
    · rw [if_neg ha, List.drop_eq_nil_of_le (by simp; omega)]
      rfl

theorem Inv.contents_eq {q : DynamicNoLockQueue} (h : Inv q) {a : Nat}
    (ha : q.head.ptr = some a) :
    contents q = (q.heap.map (fun nd => nd.data)).drop (a + 1) := by
  obtain ⟨a1, ha1, hlt⟩ := h.head_in
  rw [ha] at ha1
  cases ha1
  have hget : q.heap[a]? = some q.heap[a] := List.getElem?_eq_getElem hlt
  simp only [contents, deref, ha, hget]
  rw [h.links a _ hget]
  exact payloads_eq_drop q.heap h.links q.heap.length (a + 1) (by omega)

/-- From a well-shaped heap, `push` links the new node behind the last one and swings
`tail` to it in its first iteration. -/
theorem push_spec {q : DynamicNoLockQueue} (h : Inv q) (v : Byte) (fuel : Nat) :
    ∃ q1, push (fuel + 1) q v = .done q1 () ∧ Inv q1
      ∧ q1.heap.map (fun nd => nd.data) = q.heap.map (fun nd => nd.data) ++ [v]
      ∧ q1.head = q.head ∧ q1.toIQueue = q.toIQueue := by
  obtain ⟨t, ht, hlen⟩ := h.tail_last
  obtain ⟨a, ha, halt⟩ := h.head_in
  have htlt : t < q.heap.length := by omega
  have hget : q.heap[t]? = some q.heap[t] := List.getElem?_eq_getElem htlt
  have hget1 : (q.heap ++ [({ newNode with data := v, next := ⟨none, 0⟩ } : node)])[t]?
      = some q.heap[t] := by
    rw [List.getElem?_append_left htlt]
    exact hget
  have hnext : q.heap[t].next.ptr = none := by
    rw [h.links t _ hget, if_neg (by omega)]
  refine ⟨{ q with
      heap := (q.heap ++ [{ newNode with data := v, next := ⟨none, 0⟩ }]).set t
        { q.heap[t] with next := ⟨some q.heap.length, q.heap[t].next.ref + 1⟩ },
      tail := ⟨some q.heap.length, q.tail.ref + 1⟩ }, ?_, ?_, ?_, rfl, rfl⟩
  · simp [push, pushLoop, deref, ht, hget1, tagged_ptr_ne_self, hnext, casNext, casTail]
  · refine ⟨fun i nd hnd => ?_, ⟨q.heap.length, rfl, by simp⟩, ⟨a, ha, by simp; omega⟩⟩
    simp only [List.length_set, List.length_append, List.length_singleton] at hnd ⊢
    rw [List.getElem?_set] at hnd
    by_cases hit : t = i
    · subst hit
      rw [if_pos rfl] at hnd
      simp only [List.length_append, List.length_singleton] at hnd
      rw [if_pos (by omega)] at hnd
      cases hnd
      simp only
      rw [if_pos (by omega), hlen]
    · rw [if_neg hit] at hnd
      rcases Nat.lt_or_ge i q.heap.length with hi | hi
      · rw [List.getElem?_append_left hi] at hnd
        rw [h.links i nd hnd, if_pos (by omega), if_pos (by omega)]
      · rcases Nat.eq_or_lt_of_le hi with he | hgt
        · subst he
          simp only [List.getElem?_concat_length, Option.some.injEq] at hnd
          subst hnd
          simp
        · rw [List.getElem?_eq_none (by simp; omega)] at hnd
          cases hnd
  · simp only [List.map_set, List.map_append, List.map_cons, List.map_nil]
    apply set_same
    rw [List.getElem?_append_left (by simpa using htlt)]
    simp [hget]

theorem popLoop_empty_dynNoLock {q : DynamicNoLockQueue} (h : Inv q) {a : Nat}
    (ha : q.head.ptr = some a) (hlast : a + 1 = q.heap.length) (val : Byte) (fuel : Nat) :
    popLoop (fuel + 1) q val = .done q (false, val) := by
  obtain ⟨t, ht, hlen⟩ := h.tail_last
  obtain rfl : a = t := by omega
  have halt : a < q.heap.length := by omega
  have hget : q.heap[a]? = some q.heap[a] := List.getElem?_eq_getElem halt
  have hnext : q.heap[a].next.ptr = none := by
    rw [h.links a _ hget, if_neg (by omega)]
  simp [popLoop, deref, ha, ht, hget, tagged_ptr_eq_self, hnext]

theorem pop_empty {q : DynamicNoLockQueue} (h : Inv q) {a : Nat}
    (ha : q.head.ptr = some a) (hlast : a + 1 = q.heap.length) (val : Byte) (fuel : Nat) :
    pop (fuel + 1) q val = .done q (false, val) := by
  have hret : ∀ n, popRetry (fuel + 1) n q val = .done q (false, val) := by
    intro n
    induction n with
    | zero => rfl
    | succ n ih => simp only [popRetry, popLoop_empty_dynNoLock h ha hlast val fuel, ih]
  exact hret _

theorem pop_nonempty_dynNoLock {q : DynamicNoLockQueue} (h : Inv q) {a : Nat}
    (ha : q.head.ptr = some a) (hmore : a + 1 < q.heap.length)
    (hR : 1 ≤ q.config.retries) (val : Byte) (fuel : Nat) :
    pop (fuel + 1) q val
      = .done { q with head := ⟨some (a + 1), q.head.ref + 1⟩ }
          (true, (q.heap[a + 1]).data) := by
  obtain ⟨t, ht, hlen⟩ := h.tail_last
  obtain ⟨n, hn⟩ : ∃ n, q.config.retries.toNat = n + 1 :=
    ⟨q.config.retries.toNat - 1, by omega⟩
  have halt : a < q.heap.length := by omega
  have hget : q.heap[a]? = some q.heap[a] := List.getElem?_eq_getElem halt
  have hget1 : q.heap[a + 1]? = some q.heap[a + 1] := List.getElem?_eq_getElem hmore
  have hnext : q.heap[a].next.ptr = some (a + 1) := by
    rw [h.links a _ hget, if_pos hmore]
  have hat : a ≠ t := by omega
  simp [pop, hn, popRetry, popLoop, deref, ha, ht, hget, hget1, tagged_ptr_eq_self, hnext,
    hat, casHead]

theorem popped_inv_dynNoLock {q : DynamicNoLockQueue} (h : Inv q) {a : Nat}
    (hmore : a + 1 < q.heap.length) (r : Int) :
    Inv { q with head := ⟨some (a + 1), r⟩ } :=
  ⟨h.links, h.tail_last, ⟨a + 1, rfl, hmore⟩⟩

/-- The list refines the unbounded queue of the specification, call by call. -/
theorem run_refines_dynNoLock (fuel : Nat) :
    ∀ (ops : List Op) (q : DynamicNoLockQueue) (outs : List (Option Byte)),
      Inv q → 1 ≤ q.config.retries →
        (run (fuel + 1) ops q outs).mapState contents
          = .done (fifoUnbounded ops (contents q) outs).1
              (fifoUnbounded ops (contents q) outs).2
  | [], _, _, _, _ => rfl
  | .push v :: ops, q, outs, h, hR => by
    obtain ⟨a, ha, halt⟩ := h.head_in
    obtain ⟨q1, hp, hinv, hdata, hhead, hq⟩ := push_spec h v fuel
    have hR1 : 1 ≤ q1.config.retries := by rw [hq]; exact hR
    have hc : contents q1 = contents q ++ [v] := by
      rw [hinv.contents_eq (hhead ▸ ha), h.contents_eq ha, hdata,
        List.drop_append_of_le_length (by simp; omega)]
    simp only [run, hp, fifoUnbounded]
    rw [← hc]
    exact run_refines_dynNoLock fuel ops q1 outs hinv hR1
  | .pop :: ops, q, outs, h, hR => by
    obtain ⟨a, ha, halt⟩ := h.head_in
    rcases Nat.eq_or_lt_of_le (Nat.succ_le_of_lt halt) with hlast | hmore
    · have hnil : contents q = [] := by
        rw [h.contents_eq ha, List.drop_eq_nil_of_le (by simp; omega)]
      have ih := run_refines_dynNoLock fuel ops q (outs ++ [none]) h hR
      rw [hnil] at ih ⊢
      simp only [run, pop_empty h ha hlast 0 fuel, fifoUnbounded]
      exact ih
    · have hcons : contents q
          = (q.heap[a + 1]).data ::
              contents { q with head := ⟨some (a + 1), q.head.ref + 1⟩ } := by
        rw [h.contents_eq ha, (popped_inv_dynNoLock h hmore (q.head.ref + 1)).contents_eq rfl,
          List.drop_eq_getElem_cons (by simpa using hmore)]
        simp
      have ih := run_refines_dynNoLock fuel ops _ (outs ++ [some (q.heap[a + 1]).data])
        (popped_inv_dynNoLock h hmore (q.head.ref + 1)) hR
      rw [hcons]
      simp only [run, pop_nonempty_dynNoLock h ha hmore hR 0 fuel, fifoUnbounded]
      exact ih

end DynamicNoLockQueue

/-! ### `DynamicNoLockQueue`: first-in first-out order and the consumer loop -/

/-- In the unbounded queue of the specification the values popped so far, followed
by the resident items, are the values pushed so far, in push order. -/
theorem fifoUnbounded_order :
    ∀ (ops : List Op) (l : List Byte) (outs : List (Option Byte)),
      poppedValues (fifoUnbounded ops l outs).2 ++ (fifoUnbounded ops l outs).1
        = poppedValues outs ++ l ++ pushedValues ops
  | [], l, outs => by simp [fifoUnbounded, pushedValues]
  | .push v :: ops, l, outs => by
    rw [fifoUnbounded, fifoUnbounded_order ops]
    simp [pushedValues]
  | .pop :: ops, [], outs => by
    rw [fifoUnbounded, fifoUnbounded_order ops, poppedValues_append]
    simp [pushedValues, poppedValues]
  | .pop :: ops, x :: l, outs => by
    rw [fifoUnbounded, fifoUnbounded_order ops, poppedValues_append]
    simp [pushedValues, poppedValues]

/-- C3: for every retry count `R ≥ 1`, every single-threaded sequence of push and pop
calls on a freshly constructed `DynamicNoLockQueue` completes (one loop iteration per
call suffices) and behaves as the first-in first-out list made of the payloads of the
nodes reachable from `head.next`: `push(v)` appends `v`, a pop on a non-empty queue
returns `true` with the oldest value and removes it, a pop on an empty queue returns
`false`; hence the values of the successful pops, followed by the values still in the
list, are the pushed values in push order. -/
theorem C3_dynamicNoLock_fifo (fuel : Nat) (config : QueueConfig) (garbage : Int)
    (ops : List Op)
    (hR : 1 ≤ config.retries) (hfuel : 1 ≤ fuel) :
    (DynamicNoLockQueue.run fuel ops (DynamicNoLockQueue.construct config garbage) []).mapState
          DynamicNoLockQueue.contents
        = .done (fifoUnbounded ops [] []).1 (fifoUnbounded ops [] []).2 ∧
      poppedValues (fifoUnbounded ops [] []).2 ++ (fifoUnbounded ops [] []).1
        = pushedValues ops := by
  obtain ⟨f, rfl⟩ : ∃ f, fuel = f + 1 := ⟨fuel - 1, by omega⟩
  refine ⟨?_, by simpa [poppedValues] using fifoUnbounded_order ops [] []⟩
  exact DynamicNoLockQueue.run_refines_dynNoLock f ops (DynamicNoLockQueue.construct config garbage) []
    (DynamicNoLockQueue.construct_inv_dynNoLock config garbage) hR

/-- Witness for C3: two retries, pushes and pops interleaved, one pop on the empty
queue. -/
theorem C3_dynamicNoLock_fifo_witness :
    (1 : Int) ≤ 2 ∧ 1 ≤ 1 ∧
      (DynamicNoLockQueue.run 1 [.push 3, .push 4, .pop, .pop, .pop, .push 9, .push 8, .pop]
          (DynamicNoLockQueue.construct { retries := 2 } 0) []).mapState
          DynamicNoLockQueue.contents
        = .done [8] [some 3, some 4, none, some 9] :=
  ⟨by decide, by decide,
    (C3_dynamicNoLock_fifo 1 { retries := 2 } 0
      [.push 3, .push 4, .pop, .pop, .pop, .push 9, .push 8, .pop]
      (by decide) (by decide)).1.trans rfl⟩

namespace process

theorem run_pushes_process (fuel : Nat) :
    ∀ (xs : List Byte) (q : DynamicNoLockQueue) (outs : List (Option Byte)),
      DynamicNoLockQueue.Inv q →
        ∃ q1, DynamicNoLockQueue.run (fuel + 1) (xs.map Op.push) q outs = .done q1 outs
          ∧ DynamicNoLockQueue.Inv q1
          ∧ DynamicNoLockQueue.contents q1 = DynamicNoLockQueue.contents q ++ xs
          ∧ q1.toIQueue = q.toIQueue
  | [], q, outs, h => ⟨q, rfl, h, by simp, rfl⟩
  | x :: xs, q, outs, h => by
    obtain ⟨a, ha, halt⟩ := h.head_in
    obtain ⟨q1, hp, hinv, hdata, hhead, hq⟩ := DynamicNoLockQueue.push_spec h x fuel
    have hc : DynamicNoLockQueue.contents q1 = DynamicNoLockQueue.contents q ++ [x] := by
      rw [hinv.contents_eq (hhead ▸ ha), h.contents_eq ha, hdata,
        List.drop_append_of_le_length (by simp; omega)]
    obtain ⟨q2, hrun, hinv2, hc2, hq2⟩ := run_pushes_process fuel xs q1 outs hinv
    refine ⟨q2, ?_, hinv2, ?_, hq2.trans hq⟩
    · simp only [List.map_cons, DynamicNoLockQueue.run, hp]
      exact hrun
    · rw [hc2, hc]
      simp

/-- The consumer loop never writes the tracker. -/
theorem consumer_toIQueue (fuel : Nat) :
    ∀ (k : Nat) (q q1 : DynamicNoLockQueue) (t t1 : Tally),
      consumer fuel k q t = .done q1 t1 → q1.toIQueue = q.toIQueue
  | 0, _, _, _, _, h => by simp [consumer] at h
  | k + 1, q, q1, t, t1, h => by
    have hpop : (DynamicNoLockQueue.pop fuel q 0).Forall (fun s => s.toIQueue = q.toIQueue) :=
      DynamicNoLockQueue.popRetry_toIQueue_dynNoLock fuel _ q 0
    simp only [consumer] at h
    split at h
    · next q2 v heq =>
      rw [heq] at hpop
      exact (consumer_toIQueue fuel k _ q1 _ t1 h).trans hpop
    · next q2 v heq =>
      rw [heq] at hpop
      by_cases hfin : q2.toIQueue.is_producing_finished = true
      · rw [if_pos hfin] at h
        simp only [Outcome.done.injEq] at h
        obtain ⟨rfl, _⟩ := h
        exact hpop
      · rw [if_neg hfin] at h
        exact (consumer_toIQueue fuel k _ q1 _ t1 h).trans hpop
    · cases h
    · cases h
    · cases h

/-- The consumer loop leaves only after a failed pop that saw the tracker at zero. -/
theorem consumer_exit (fuel : Nat) :
    ∀ (k : Nat) (q q1 : DynamicNoLockQueue) (t t1 : Tally),
      consumer fuel k q t = .done q1 t1 → q1.thread_count = 0
  | 0, _, _, _, _, h => by simp [consumer] at h
  | k + 1, q, q1, t, t1, h => by
    simp only [consumer] at h
    split at h
    · exact consumer_exit fuel k _ q1 _ t1 h
    · next q2 v _ =>
      by_cases hfin : q2.toIQueue.is_producing_finished = true
      · rw [if_pos hfin] at h
        simp only [Outcome.done.injEq] at h
        obtain ⟨rfl, _⟩ := h
        simpa [IQueue.is_producing_finished] using hfin
      · rw [if_neg hfin] at h
        exact consumer_exit fuel k _ q1 _ t1 h
    · cases h
    · cases h
    · cases h

/-- A consumer loop that exits was started on a queue whose tracker reads zero. -/
theorem consumer_done_zero {fuel k : Nat} {q q1 : DynamicNoLockQueue} {t t1 : Tally}
    (h : consumer fuel k q t = .done q1 t1) : q.toIQueue.thread_count = 0 := by
  have h1 : q1.toIQueue.thread_count = 0 := consumer_exit fuel k q q1 t t1 h
  rw [consumer_toIQueue fuel k q q1 t t1 h] at h1
  exact h1

/-- A start followed by a finish leaves a counter that is in the range of `int` as
it was. -/
theorem started_finished (q : IQueue) (hlo : -2147483648 ≤ q.thread_count)
    (hhi : q.thread_count < 2147483648) :
    q.one_producer_started.one_producer_finished = q := by
  cases q with
  | mk config tc =>
    simp only [IQueue.one_producer_started, IQueue.one_producer_finished, IQueue.mk.injEq,
      true_and]
    simp only at hlo hhi
    unfold wrap32
    omega

/-- A producer on its own announces itself, appends its values and retires. -/
theorem producer_spec (fuel : Nat) (q : DynamicNoLockQueue) (xs : List Byte)
    (hfuel : 1 ≤ fuel) (h : DynamicNoLockQueue.Inv q) :
    ∃ q1, producer fuel q xs = .done q1 () ∧ DynamicNoLockQueue.Inv q1
      ∧ DynamicNoLockQueue.contents q1 = DynamicNoLockQueue.contents q ++ xs
      ∧ q1.toIQueue = q.toIQueue.one_producer_started.one_producer_finished := by
  obtain ⟨f, rfl⟩ : ∃ f, fuel = f + 1 := ⟨fuel - 1, by omega⟩
  obtain ⟨q1, hrun, hinv, hc, hq⟩ := run_pushes_process f xs
    { q with toIQueue := q.toIQueue.one_producer_started } []
    ⟨h.links, h.tail_last, h.head_in⟩
  refine ⟨{ q1 with toIQueue := q1.toIQueue.one_producer_finished }, ?_,
    ⟨hinv.links, hinv.tail_last, hinv.head_in⟩, hc, ?_⟩
  · simp only [producer, hrun]
  · show q1.toIQueue.one_producer_finished = _
    rw [hq]

/-- Two producers that ran to their end on a queue whose tracker started at a value
other than zero leave it at that value, and no consumer loop started afterwards ever
exits. -/
theorem producersThenConsumers_stuck (fuel k : Nat) (config : QueueConfig) (garbage : Int)
    (xs : List Byte) (hfuel : 1 ≤ fuel) (hlo : -2147483648 ≤ garbage)
    (hhi : garbage < 2147483648) (hne : garbage ≠ 0)
    (q : DynamicNoLockQueue) (ts : Tally × Tally) :
    producersThenConsumers fuel k config garbage xs ≠ .done q ts := by
  intro h
  obtain ⟨q1, hp1, hinv1, _, hq1⟩ := producer_spec fuel
    (DynamicNoLockQueue.construct config garbage) xs hfuel
    (DynamicNoLockQueue.construct_inv_dynNoLock config garbage)
  rw [started_finished _ (by simpa [DynamicNoLockQueue.construct, IQueue.construct] using hlo)
    (by simpa [DynamicNoLockQueue.construct, IQueue.construct] using hhi)] at hq1
  obtain ⟨q2, hp2, _, _, hq2⟩ := producer_spec fuel q1 xs hfuel hinv1
  rw [hq1, started_finished _
    (by simpa [DynamicNoLockQueue.construct, IQueue.construct] using hlo)
    (by simpa [DynamicNoLockQueue.construct, IQueue.construct] using hhi)] at hq2
  simp only [producersThenConsumers, hp1, hp2] at h
  split at h
  · next q3 t1 heq =>
    have hz := consumer_done_zero heq
    rw [hq2] at hz
    exact hne hz
  · cases h
  · cases h
  · cases h

/-- Two consumers that run before any producer has announced itself, on a queue
whose tracker reads zero, each fail one pop and leave with sum `0`; the values the
producers push afterwards all stay in the queue. -/
theorem consumersThenProducers_spec (fuel k : Nat) (config : QueueConfig) (xs : List Byte)
    (hfuel : 1 ≤ fuel) (hk : 1 ≤ k) :
    ∃ q, consumersThenProducers fuel k config 0 xs
        = .done q ({ sum := 0, pops := [false] }, { sum := 0, pops := [false] })
      ∧ DynamicNoLockQueue.contents q = xs ++ xs := by
  obtain ⟨f, rfl⟩ : ∃ f, fuel = f + 1 := ⟨fuel - 1, by omega⟩
  obtain ⟨j, rfl⟩ : ∃ j, k = j + 1 := ⟨k - 1, by omega⟩
  have hinv := DynamicNoLockQueue.construct_inv_dynNoLock config 0
  have hcons : consumer (f + 1) (j + 1) (DynamicNoLockQueue.construct config 0)
      { sum := 0, pops := [] }
        = .done (DynamicNoLockQueue.construct config 0) { sum := 0, pops := [false] } := by
    have hfin : (DynamicNoLockQueue.construct config 0).toIQueue.is_producing_finished
        = true := rfl
    simp [consumer, DynamicNoLockQueue.pop_empty hinv (a := 0) rfl rfl 0 f, hfin]
  obtain ⟨q1, hp1, hinv1, hc1, _⟩ := producer_spec (f + 1)
    (DynamicNoLockQueue.construct config 0) xs hfuel hinv
  obtain ⟨q2, hp2, _, hc2, _⟩ := producer_spec (f + 1) q1 xs hfuel hinv1
  refine ⟨q2, ?_, ?_⟩
  · simp only [consumersThenProducers, hcons, hp1, hp2]
  · rw [hc2, hc1]
    rfl

end process

/-- C10, a schedule of `process<DynamicNoLockQueue>` that breaks conservation.
Nothing in `process` makes a consumer thread wait for a producer thread to announce
itself. On a queue whose tracker reads zero, when the two consumers run before the
first `one_producer_started`, each fails one pop, sees `is_producing_finished()`
true and leaves with sum `0`; the two producers then push their `1048576` ones
each, and all `2097152` items stay in the queue: the sums add up to `0`. On a
queue whose tracker reads something else (here `-1431655766`), when the two
producers run first the tracker is back at that value, and the first consumer
never leaves its loop. -/
theorem C10_schedules_break_conservation :
    (∃ q, process.consumersThenProducers 1 1 {} 0 (List.replicate 1048576 1)
        = .done q ({ sum := 0, pops := [false] }, { sum := 0, pops := [false] })
      ∧ (DynamicNoLockQueue.contents q).length = 2097152) ∧
      (∀ (k : Nat) (q : DynamicNoLockQueue) (ts : process.Tally × process.Tally),
        process.producersThenConsumers 1 k {} (-1431655766) (List.replicate 1048576 1)
          ≠ .done q ts) := by
  refine ⟨?_, fun k q ts =>
    process.producersThenConsumers_stuck 1 k {} (-1431655766) _ (by decide) (by decide)
      (by decide) (by decide) q ts⟩
  obtain ⟨q, hq, hc⟩ := process.consumersThenProducers_spec 1 1 {}
    (List.replicate 1048576 1) (by decide) (by decide)
  refine ⟨q, hq, ?_⟩
  rw [hc, List.length_append, List.length_replicate]

/-! ### `FixedSizeLockQueue`: index safety -/

/-- Both indices of the ring stay inside the array along every run, whatever the
flag `is_full` says. -/
theorem FixedSizeLockQueue.run_bounds {N : Nat} (hN : 0 < N) :
    ∀ (ops : List Op) (s : FixedSizeLockQueue) (outs : List (Option Byte)),
      s.ql < N → s.qr < N →
        (FixedSizeLockQueue.run N ops s outs).Forall (fun s1 => s1.ql < N ∧ s1.qr < N)
  | [], _, _, h1, h2 => ⟨h1, h2⟩
  | .push v :: ops, s, outs, h1, h2 => by
    cases hf : s.is_full with
    | true => simpa [FixedSizeLockQueue.run, FixedSizeLockQueue.push, hf, Outcome.Forall]
        using And.intro h1 h2
    | false =>
      simp only [FixedSizeLockQueue.run, FixedSizeLockQueue.push, hf, Bool.false_eq_true,
        if_false]
      exact FixedSizeLockQueue.run_bounds hN ops _ outs h1 (Nat.mod_lt _ hN)
  | .pop :: ops, s, outs, h1, h2 => by
    rcases FixedSizeLockQueue.pop_cases N s 0 with hp | ⟨_, hp⟩
    · simp only [FixedSizeLockQueue.run, hp]
      exact FixedSizeLockQueue.run_bounds hN ops s _ h1 h2
    · simp only [FixedSizeLockQueue.run, hp]
      exact FixedSizeLockQueue.run_bounds hN ops _ _ (Nat.mod_lt _ hN) h2

/-- C18: for every capacity `N ≥ 1`, in every state in which a run of push and pop
calls on a fresh `FixedSizeLockQueue<N>` stands between two calls (or blocks in a
push), `ql < N` and `qr < N`, so the accesses `data[qr]` of push and `data[ql]` of pop
are inside the `N`-element array; the subtraction `capacity - (ql - qr)` of `size()`
does not underflow, and `size()` is strictly less than `N`. -/
theorem C18_fixedLock_index_safety (N : Nat) (config : QueueConfig) (garbage : Int) (mem : Nat → Byte)
    (ops : List Op) (hN : 1 ≤ N) :
    (FixedSizeLockQueue.run N ops (FixedSizeLockQueue.construct config garbage mem) []).Forall
      (fun s => s.ql < N ∧ s.qr < N ∧ (¬ s.ql ≤ s.qr → s.ql - s.qr ≤ N) ∧
        FixedSizeLockQueue.size N s < N) := by
  have hb := FixedSizeLockQueue.run_bounds (show 0 < N by omega) ops
    (FixedSizeLockQueue.construct config garbage mem) []
    (by simp only [FixedSizeLockQueue.construct]; omega)
    (by simp only [FixedSizeLockQueue.construct]; omega)
  refine hb.imp (fun s hs => ⟨hs.1, hs.2, fun _ => by omega, ?_⟩)
  unfold FixedSizeLockQueue.size
  split <;> omega

/-- Witness for C18: capacity 1, where the first push completes and the second one
blocks. -/
theorem C18_fixedLock_index_safety_witness :
    1 ≤ 1 ∧
      (FixedSizeLockQueue.run 1 [.push 7, .pop, .push 8]
          (FixedSizeLockQueue.construct {} 0 (fun _ => 0)) []).Forall
        (fun s => s.ql < 1 ∧ s.qr < 1 ∧ (¬ s.ql ≤ s.qr → s.ql - s.qr ≤ 1) ∧
          FixedSizeLockQueue.size 1 s < 1) :=
  ⟨by decide,
    C18_fixedLock_index_safety 1 {} 0 (fun _ => 0) [.push 7, .pop, .push 8] (by decide)⟩

/-! ### `DynamicLockQueue::pop` on an empty queue -/

/-- The instrumented loop returns what `popRetry` returns. -/
theorem DynamicLockQueue.popRetryLog_eq (s : DynamicLockQueue) (val : Byte) :
    ∀ (n : Nat) (retries : Int),
      ((DynamicLockQueue.popRetryLog s val n retries).1,
        (DynamicLockQueue.popRetryLog s val n retries).2.1,
        (DynamicLockQueue.popRetryLog s val n retries).2.2.1)
        = DynamicLockQueue.popRetry s val n
  | 0, _ => rfl
  | n + 1, retries => by
    cases hq : s.q with
    | nil =>
      simp only [DynamicLockQueue.popRetryLog, DynamicLockQueue.popRetry, hq]
      exact DynamicLockQueue.popRetryLog_eq s val n (retries + 1)
    | cons front rest =>
      simp only [DynamicLockQueue.popRetryLog, DynamicLockQueue.popRetry, hq]

/-- On an empty queue the loop checks once per iteration and sleeps after every check
but the last. -/
theorem DynamicLockQueue.popRetryLog_empty (s : DynamicLockQueue) (val : Byte)
    (hempty : s.q = []) :
    ∀ (n : Nat) (retries : Int), retries + n = s.config.retries →
      DynamicLockQueue.popRetryLog s val n retries
        = (false, val, s,
            (List.replicate (n - 1) [PopEvent.check, PopEvent.sleep]).flatten
              ++ (if n = 0 then [] else [PopEvent.check]))
  | 0, _, _ => rfl
  | n + 1, retries, hsum => by
    have ih := DynamicLockQueue.popRetryLog_empty s val hempty n (retries + 1)
      (by push_cast at hsum; omega)
    simp only [DynamicLockQueue.popRetryLog, hempty, ih]
    cases n with
    | zero =>
      have hlast : retries = s.config.retries - 1 := by push_cast at hsum; omega
      simp [hlast]
    | succ m =>
      have hnot : retries ≠ s.config.retries - 1 := by push_cast at hsum; omega
      simp [hnot, List.replicate_succ]

theorem DynamicLockQueue.count_check_sleep (k : Nat) :
    ((List.replicate k [PopEvent.check, PopEvent.sleep]).flatten ++ [PopEvent.check]).count
          PopEvent.check = k + 1 ∧
      ((List.replicate k [PopEvent.check, PopEvent.sleep]).flatten ++ [PopEvent.check]).count
          PopEvent.sleep = k := by
  induction k with
  | zero => decide
  | succ k ih =>
    obtain ⟨h1, h2⟩ := ih
    simp only [List.replicate_succ, List.flatten_cons, List.cons_append, List.nil_append,
      List.count_cons] at h1 h2 ⊢
    simp only [List.count_append] at h1 h2 ⊢
    constructor <;> simp_all

/-- C17: for every retry count `R ≥ 1`, `DynamicLockQueue::pop` on an empty queue
returns `false` after exactly `R` emptiness checks and exactly `R - 1` sleeps, each
sleep following a check and the last event being a check (no sleep after the last
attempt), and leaves the queue and the caller's `val` unchanged. -/
theorem C17_dynamicLock_pop_bounded_failure (s : DynamicLockQueue) (val : Byte)
    (hR : 1 ≤ s.config.retries) (hempty : s.q = []) :
    s.pop val = (false, val, s) ∧
      s.popLog val
        = (false, val, s,
            (List.replicate (s.config.retries.toNat - 1)
                [PopEvent.check, PopEvent.sleep]).flatten ++ [PopEvent.check]) ∧
      (s.popLog val).2.2.2.count PopEvent.check = s.config.retries.toNat ∧
      (s.popLog val).2.2.2.count PopEvent.sleep = s.config.retries.toNat - 1 := by
  have hlog := DynamicLockQueue.popRetryLog_empty s val hempty s.config.retries.toNat 0
    (by rw [Int.toNat_of_nonneg (by omega)]; omega)
  have hne : ¬ s.config.retries.toNat = 0 := by omega
  rw [if_neg hne] at hlog
  have heq := DynamicLockQueue.popRetryLog_eq s val s.config.retries.toNat 0
  rw [hlog] at heq
  have hcount := DynamicLockQueue.count_check_sleep (s.config.retries.toNat - 1)
  refine ⟨heq.symm, hlog, ?_, ?_⟩
  · rw [DynamicLockQueue.popLog, hlog]
    simp only
    rw [hcount.1]
    omega
  · rw [DynamicLockQueue.popLog, hlog]
    exact hcount.2

/-- Witness for C17: three retries on the empty queue. -/
theorem C17_dynamicLock_pop_bounded_failure_witness :
    (1 : Int) ≤ 3 ∧
      DynamicLockQueue.popLog { config := { retries := 3 }, thread_count := 0, q := [] } 9
        = (false, 9, { config := { retries := 3 }, thread_count := 0, q := [] },
            [.check, .sleep, .check, .sleep, .check]) :=
  ⟨by decide,
    (C17_dynamicLock_pop_bounded_failure
      { config := { retries := 3 }, thread_count := 0, q := [] } 9 (by decide) rfl).2.1⟩

/-! ### `FixedSizeNoLockQueue`: slots, cursors and single iterations -/

namespace FixedSizeNoLockQueue

theorem casQr_data (q : FixedSizeNoLockQueue) (e d : Nat) : (casQr q e d).data = q.data := by
  unfold casQr
  split <;> rfl

theorem casQl_data (q : FixedSizeNoLockQueue) (e d : Nat) : (casQl q e d).data = q.data := by
  unfold casQl
  split <;> rfl

/-- The loop of `pushLoop` runs `pushIteration` on freshly loaded locals. -/
theorem pushLoop_eq_iteration (N : Nat) (v : Byte) (fuel : Nat) (q : FixedSizeNoLockQueue) :
    pushLoop N v (fuel + 1) q
      = match pushIteration N v q.qr (q.data (q.qr % N)) q with
        | .retry q1 => pushLoop N v fuel q1
        | .exit q1 => .done q1 ()
        | .waits q1 => .waits q1
        | .fault => .fault := by
  conv_lhs => unfold pushLoop
  unfold pushIteration
  dsimp only
  split_ifs with h0 h1 h2 h3
  · rfl
  · rfl
  · rfl
  · simp [casSlot]
  · rfl

/-- A completed `pushLoop` has rewritten exactly the slot of the cursor it claimed. -/
theorem pushLoop_slot (N : Nat) (v : Byte) :
    ∀ (fuel : Nat) (q q1 : FixedSizeNoLockQueue), pushLoop N v fuel q = .done q1 () →
      ∃ pos, q1.qr = pos + 1 ∧
        q1.data = Function.update q.data (pos % N) ⟨v, wrap32 ((q.data (pos % N)).ref + 1)⟩
  | 0, _, _, h => by simp [pushLoop] at h
  | fuel + 1, q, q1, h => by
    unfold pushLoop at h
    dsimp only at h
    split_ifs at h with h0 h1 h2 h3
    · exact absurd rfl h1
    · simp only [casSlot, if_true, casQr, Outcome.done.injEq, and_true] at h
      subst h
      exact ⟨q.qr, rfl, rfl⟩
    · obtain ⟨pos, hq, hd⟩ := pushLoop_slot N v fuel _ q1 h
      rw [casQr_data] at hd
      exact ⟨pos, hq, hd⟩

/-- A completed `popLoop` has either emptied exactly the slot of the cursor it
claimed, or left every slot alone. -/
theorem popLoop_slot (N : Nat) :
    ∀ (fuel : Nat) (q q1 : FixedSizeNoLockQueue) (r : Option Byte),
      popLoop N fuel q = .done q1 r →
        (r = none ∧ q1.data = q.data) ∨
          ∃ pos, r = some (q.data (pos % N)).data ∧ q1.ql = pos + 1 ∧
            q1.data = Function.update q.data (pos % N) ⟨0, wrap32 ((q.data (pos % N)).ref + 1)⟩
  | 0, _, _, _, h => by simp [popLoop] at h
  | fuel + 1, q, q1, r, h => by
    unfold popLoop at h
    dsimp only at h
    split_ifs at h with h0 h1 h2 h3
    · exact absurd rfl h1
    · simp only [Outcome.done.injEq] at h
      obtain ⟨rfl, rfl⟩ := h
      exact Or.inl ⟨rfl, rfl⟩
    · simp only [casSlot, if_true, casQl, Outcome.done.injEq] at h
      obtain ⟨rfl, rfl⟩ := h
      exact Or.inr ⟨q.ql, rfl, rfl, rfl⟩
    · rcases popLoop_slot N fuel _ q1 r h with ⟨hr, hd⟩ | ⟨pos, hr, hq, hd⟩
      · exact Or.inl ⟨hr, by rw [hd, casQl_data]⟩
      · rw [casQl_data] at hr hd
        exact Or.inr ⟨pos, hr, hq, hd⟩

theorem popRetry_slot (N fuel : Nat) (val : Byte) :
    ∀ (n : Nat) (q q1 : FixedSizeNoLockQueue) (b : Bool) (x : Byte),
      popRetry N fuel val n q = .done q1 (b, x) →
        (b = false ∧ q1.data = q.data) ∨
          ∃ pos, b = true ∧ x = (q.data (pos % N)).data ∧ q1.ql = pos + 1 ∧
            q1.data = Function.update q.data (pos % N) ⟨0, wrap32 ((q.data (pos % N)).ref + 1)⟩
  | 0, q, q1, b, x, h => by
    simp only [popRetry, Outcome.done.injEq, Prod.mk.injEq] at h
    obtain ⟨rfl, rfl, _⟩ := h
    exact Or.inl ⟨rfl, rfl⟩
  | n + 1, q, q1, b, x, h => by
    unfold popRetry at h
    split at h
    · next q2 w heq =>
      simp only [Outcome.done.injEq, Prod.mk.injEq] at h
      obtain ⟨rfl, rfl, rfl⟩ := h
      rcases popLoop_slot N fuel q q2 (some w) heq with ⟨hr, _⟩ | ⟨pos, hr, hq, hd⟩
      · cases hr
      · exact Or.inr ⟨pos, rfl, Option.some.inj hr, hq, hd⟩
    · next q2 heq =>
      rcases popLoop_slot N fuel q q2 none heq with ⟨_, hd2⟩ | ⟨pos, hr, _, _⟩
      · rcases popRetry_slot N fuel val n q2 q1 b x h with ⟨hb, hd⟩ | ⟨pos, hb, hx, hq, hd⟩
        · exact Or.inl ⟨hb, hd.trans hd2⟩
        · rw [hd2] at hx hd
          exact Or.inr ⟨pos, hb, hx, hq, hd⟩
      · cases hr
    · cases h
    · cases h
    · cases h

end FixedSizeNoLockQueue

/-- C16 (as stated, refuted): on a ring of capacity 1 whose slot has `ref = 2147483647`,
the largest `int`, a push that completes leaves `ref = -2147483648`, not
`2147483648`, and so does a successful pop: `ref + 1` is computed in `int`. -/
theorem C16_counterexample_generation_wraps :
    ((FixedSizeNoLockQueue.push 1 1
        (FixedSizeNoLockQueue.construct {} 0 (fun _ => ⟨0, 2147483647⟩)) 7).state?.map
          (fun q => q.data 0)) = some ⟨7, -2147483648⟩ ∧
      ((FixedSizeNoLockQueue.pop 1 1
        { FixedSizeNoLockQueue.construct {} 0 (fun _ => ⟨9, 2147483647⟩) with qr := 1 }
          0).state?.map (fun q => q.data 0)) = some ⟨0, -2147483648⟩ ∧
      ((2147483647 : Int) + 1 = 2147483648) := by
  refine ⟨rfl, rfl, rfl⟩

/-- C16 (amended): a completed `FixedSizeNoLockQueue::push` and a successful
`FixedSizeNoLockQueue::pop`, from any state, change exactly one slot, the one at index
`pos mod N` for the cursor value `pos` they claimed (the cursor ends at `pos + 1`):
its `ref` becomes `ref + 1` reduced to the range of `int`, which is `ref + 1` unless
`ref` was `2147483647`, and every other slot keeps its `data` and `ref`; the push
stores the pushed value in that slot's `data`, the pop stores `0` there and returns
the value it found. (With `N = 0` no call completes.) -/
theorem C16_fixedNoLock_slot_generation (N fuel : Nat) (q q1 : FixedSizeNoLockQueue)
    (v val x : Byte) :
    (FixedSizeNoLockQueue.push N fuel q v = .done q1 () →
        ∃ pos, q1.qr = pos + 1 ∧ (q1.data (pos % N)).data = v ∧
          (q1.data (pos % N)).ref = wrap32 ((q.data (pos % N)).ref + 1) ∧
          (-2147483648 ≤ (q.data (pos % N)).ref → (q.data (pos % N)).ref < 2147483647 →
            (q1.data (pos % N)).ref = (q.data (pos % N)).ref + 1) ∧
          ∀ j, j ≠ pos % N → q1.data j = q.data j) ∧
      (FixedSizeNoLockQueue.pop N fuel q val = .done q1 (true, x) →
        ∃ pos, q1.ql = pos + 1 ∧ (q1.data (pos % N)).data = 0 ∧
          (q1.data (pos % N)).ref = wrap32 ((q.data (pos % N)).ref + 1) ∧
          (-2147483648 ≤ (q.data (pos % N)).ref → (q.data (pos % N)).ref < 2147483647 →
            (q1.data (pos % N)).ref = (q.data (pos % N)).ref + 1) ∧
          (∀ j, j ≠ pos % N → q1.data j = q.data j) ∧ x = (q.data (pos % N)).data) := by
  constructor
  · intro h
    obtain ⟨pos, hq, hd⟩ := FixedSizeNoLockQueue.pushLoop_slot N v fuel q q1 h
    refine ⟨pos, hq, ?_, ?_, fun hlo hhi => ?_, fun j hj => ?_⟩
    · rw [hd, Function.update_same]
    · rw [hd, Function.update_same]
    · rw [hd, Function.update_same]
      exact wrap32_of_range (by omega) (by omega)
    · rw [hd, Function.update_noteq hj]
  · intro h
    rcases FixedSizeNoLockQueue.popRetry_slot N fuel val _ q q1 true x h with
      ⟨hb, _⟩ | ⟨pos, _, hx, hq, hd⟩
    · cases hb
    · refine ⟨pos, hq, ?_, ?_, fun hlo hhi => ?_, fun j hj => ?_, hx⟩
      · rw [hd, Function.update_same]
      · rw [hd, Function.update_same]
      · rw [hd, Function.update_same]
        exact wrap32_of_range (by omega) (by omega)
      · rw [hd, Function.update_noteq hj]

/-- Witness for C16: the first push onto a zeroed ring of capacity 2, then the pop
that takes the pushed value back: slot 0 goes from `{0, 0}` to `{7, 1}` to `{0, 2}`,
slot 1 stays `{0, 0}`. -/
theorem C16_fixedNoLock_slot_generation_witness :
    FixedSizeNoLockQueue.push 2 1 (FixedSizeNoLockQueue.construct {} 0 (fun _ => ⟨0, 0⟩)) 7
        = .done { FixedSizeNoLockQueue.construct {} 0
            (Function.update (fun _ => ⟨0, 0⟩) 0 ⟨7, 1⟩) with qr := 1 } () ∧
      FixedSizeNoLockQueue.pop 2 1
          { FixedSizeNoLockQueue.construct {} 0
            (Function.update (fun _ => ⟨0, 0⟩) 0 ⟨7, 1⟩) with qr := 1 } 0
        = .done { FixedSizeNoLockQueue.construct {} 0
            (Function.update (Function.update (fun _ => ⟨0, 0⟩) 0 ⟨7, 1⟩) 0 ⟨0, 2⟩) with
              ql := 1, qr := 1 } (true, 7) ∧
      (∃ pos, 1 = pos + 1 ∧
        (Function.update (fun _ => (⟨0, 0⟩ : DataWithRef)) 0 ⟨7, 1⟩ (pos % 2)).data = 7 ∧
        (Function.update (fun _ => (⟨0, 0⟩ : DataWithRef)) 0 ⟨7, 1⟩ (pos % 2)).ref
          = (0 : Int) + 1 ∧
        ∀ j, j ≠ pos % 2 →
          Function.update (fun _ => (⟨0, 0⟩ : DataWithRef)) 0 ⟨7, 1⟩ j = ⟨0, 0⟩) ∧
      (∃ pos, 1 = pos + 1 ∧
        (Function.update (Function.update (fun _ => (⟨0, 0⟩ : DataWithRef)) 0 ⟨7, 1⟩)
          0 ⟨0, 2⟩ (pos % 2)).data = 0 ∧
        (Function.update (Function.update (fun _ => (⟨0, 0⟩ : DataWithRef)) 0 ⟨7, 1⟩)
          0 ⟨0, 2⟩ (pos % 2)).ref
            = wrap32 ((Function.update (fun _ => (⟨0, 0⟩ : DataWithRef)) 0 ⟨7, 1⟩
                (pos % 2)).ref + 1) ∧
        (∀ j, j ≠ pos % 2 →
          Function.update (Function.update (fun _ => (⟨0, 0⟩ : DataWithRef)) 0 ⟨7, 1⟩)
            0 ⟨0, 2⟩ j = Function.update (fun _ => (⟨0, 0⟩ : DataWithRef)) 0 ⟨7, 1⟩ j) ∧
        (7 : Byte)
          = (Function.update (fun _ => (⟨0, 0⟩ : DataWithRef)) 0 ⟨7, 1⟩ (pos % 2)).data) := by
  obtain ⟨pos, h1, h2, _, h4, h5⟩ := (C16_fixedNoLock_slot_generation 2 1
    (FixedSizeNoLockQueue.construct {} 0 (fun _ => ⟨0, 0⟩))
    { FixedSizeNoLockQueue.construct {} 0
        (Function.update (fun _ => ⟨0, 0⟩) 0 ⟨7, 1⟩) with qr := 1 } 7 0 0).1 rfl
  obtain ⟨pos1, k1, k2, k3, _, k5, k6⟩ := (C16_fixedNoLock_slot_generation 2 1
    { FixedSizeNoLockQueue.construct {} 0
        (Function.update (fun _ => ⟨0, 0⟩) 0 ⟨7, 1⟩) with qr := 1 }
    { FixedSizeNoLockQueue.construct {} 0
        (Function.update (Function.update (fun _ => ⟨0, 0⟩) 0 ⟨7, 1⟩) 0 ⟨0, 2⟩) with
          ql := 1, qr := 1 } 0 0 7).2 rfl
  exact ⟨rfl, rfl, ⟨pos, h1, h2, h4 (show (-2147483648 : Int) ≤ 0 by decide)
      (show (0 : Int) < 2147483647 by decide), h5⟩,
    ⟨pos1, k1, k2, k3, k5, k6⟩⟩

/-- With only non-zero values pushed, every completed run keeps the invariant and
the window occupied, and the window holds the pushed values not yet popped, in push
order. -/
theorem FixedSizeNoLockQueue.run_contents (N fuel : Nat) (hN : 0 < N) :
    ∀ (ops : List Op) (q q1 : FixedSizeNoLockQueue) (outs outs1 : List (Option Byte)),
      FixedSizeNoLockQueue.Inv N q → FixedSizeNoLockQueue.Occupied N q →
        (∀ v ∈ pushedValues ops, v ≠ 0) →
          FixedSizeNoLockQueue.run N fuel ops q outs = .done q1 outs1 →
            FixedSizeNoLockQueue.Inv N q1 ∧ FixedSizeNoLockQueue.Occupied N q1 ∧
              poppedValues outs1 ++ FixedSizeNoLockQueue.contents N q1
                = poppedValues outs ++ FixedSizeNoLockQueue.contents N q ++ pushedValues ops
  | [], q, q1, outs, outs1, h, hocc, _, hrun => by
    simp only [FixedSizeNoLockQueue.run, Outcome.done.injEq] at hrun
    obtain ⟨rfl, rfl⟩ := hrun
    exact ⟨h, hocc, by simp [pushedValues]⟩
  | .push v :: ops, q, q1, outs, outs1, h, hocc, hnz, hrun => by
    cases fuel with
    | zero =>
      simp [FixedSizeNoLockQueue.run, FixedSizeNoLockQueue.push,
        FixedSizeNoLockQueue.pushLoop] at hrun
    | succ f =>
      rcases FixedSizeNoLockQueue.push_cases h hN v f with ⟨_, hp⟩ | ⟨hroom, hp⟩
      · simp [FixedSizeNoLockQueue.run, hp] at hrun
      · simp only [FixedSizeNoLockQueue.run, hp] at hrun
        have hv : v ≠ 0 := hnz v (by simp [pushedValues])
        obtain ⟨hi, ho, hc⟩ := FixedSizeNoLockQueue.run_contents N (f + 1) hN ops _ q1 outs outs1
          (FixedSizeNoLockQueue.pushed_inv h hroom _)
          (FixedSizeNoLockQueue.pushed_occupied hocc hroom v hv _)
          (fun w hw => hnz w (by simp [pushedValues, hw])) hrun
        refine ⟨hi, ho, ?_⟩
        rw [hc, FixedSizeNoLockQueue.pushed_contents h hroom]
        simp [pushedValues]
  | .pop :: ops, q, q1, outs, outs1, h, hocc, hnz, hrun => by
    have hle := h.le
    rcases FixedSizeNoLockQueue.pop_occupied_cases hN hocc hle fuel 0 with hp | hp | ⟨hsome, hp⟩
    · simp [FixedSizeNoLockQueue.run, hp] at hrun
    · simp only [FixedSizeNoLockQueue.run, hp] at hrun
      obtain ⟨hi, ho, hc⟩ := FixedSizeNoLockQueue.run_contents N fuel hN ops q q1 _ outs1 h hocc
        (fun w hw => hnz w (by simpa [pushedValues] using hw)) hrun
      refine ⟨hi, ho, ?_⟩
      rw [hc, poppedValues_append]
      simp [pushedValues, poppedValues]
    · simp only [FixedSizeNoLockQueue.run, hp] at hrun
      obtain ⟨hi, ho, hc⟩ := FixedSizeNoLockQueue.run_contents N fuel hN ops _ q1 _ outs1
        (FixedSizeNoLockQueue.popped_inv_fixedNoLock h hsome _)
        (FixedSizeNoLockQueue.popped_occupied h hocc _)
        (fun w hw => hnz w (by simpa [pushedValues] using hw)) hrun
      refine ⟨hi, ho, ?_⟩
      rw [hc, poppedValues_append,
        FixedSizeNoLockQueue.popped_contents h hsome
          ⟨0, wrap32 ((q.data (q.ql % N)).ref + 1)⟩]
      simp [pushedValues, poppedValues]

/-- The cursor and slot invariant, from a ring whose slots all start with
`data == 0`: for every capacity `N ≥ 1`, in every state reached by completed
single-threaded push and pop calls with non-zero values, `ql ≤ qr ≤ ql + N`; the
slots at the indices `c mod N` for `ql ≤ c < qr` hold, in order, the pushed values
not yet popped, all with `data != 0`; every other slot has `data == 0`; and push
waits, writing nothing, exactly when `qr == ql + N`, while otherwise it completes. -/
theorem fixedNoLock_cursor_slot_invariant_of_zeroed (N fuel : Nat) (config : QueueConfig)
    (garbage : Int) (mem : Nat → DataWithRef)
    (ops : List Op) (q : FixedSizeNoLockQueue) (outs : List (Option Byte)) (hN : 1 ≤ N)
    (hmem : ∀ i, (mem i).data = 0)
    (hnz : ∀ v ∈ pushedValues ops, v ≠ 0)
    (hrun : FixedSizeNoLockQueue.run N fuel ops
        (FixedSizeNoLockQueue.construct config garbage mem) []
      = .done q outs) :
    q.ql ≤ q.qr ∧ q.qr ≤ q.ql + N ∧
      poppedValues outs ++ FixedSizeNoLockQueue.contents N q = pushedValues ops ∧
      (∀ c, q.ql ≤ c → c < q.qr → (q.data (c % N)).data ≠ 0) ∧
      (∀ i, i < N → (∀ c, q.ql ≤ c → c < q.qr → c % N ≠ i) → (q.data i).data = 0) ∧
      (∀ (v : Byte) (f : Nat),
        (FixedSizeNoLockQueue.push N (f + 1) q v = .waits q ↔ q.qr = q.ql + N) ∧
          (q.qr ≠ q.ql + N → ∃ q1, FixedSizeNoLockQueue.push N (f + 1) q v = .done q1 ())) := by
  obtain ⟨hinv, hocc, hc⟩ := FixedSizeNoLockQueue.run_contents N fuel hN ops _ q [] outs
    (FixedSizeNoLockQueue.construct_inv_fixedNoLock N config garbage mem hmem)
    (FixedSizeNoLockQueue.construct_occupied N config garbage mem) hnz hrun
  have hc0 : FixedSizeNoLockQueue.contents N
      (FixedSizeNoLockQueue.construct config garbage mem) = [] := by
    simp [FixedSizeNoLockQueue.contents, FixedSizeNoLockQueue.construct]
  rw [hc0] at hc
  refine ⟨hinv.le, hinv.bound, by simpa [poppedValues] using hc, hocc, hinv.free,
    fun v f => ?_⟩
  rcases FixedSizeNoLockQueue.push_cases hinv hN v f with ⟨hfull, hp⟩ | ⟨hroom, hp⟩
  · exact ⟨⟨fun _ => hfull, fun _ => hp⟩, fun hne => absurd hfull hne⟩
  · refine ⟨⟨fun hw => ?_, fun hfull => by omega⟩, fun _ => ⟨_, hp⟩⟩
    rw [hp] at hw
    cases hw

/-- C13, on a fresh queue as the constructor leaves it. The constructor sets the
two cursors and nothing else, so the slots hold whatever the memory held. With
capacity 2 and both slots holding `{170, -1431655766}`: a slot outside the (empty)
window has `data != 0`; the first `push(7)` reads both slots as occupied, advances
`qr` to `2` and then waits, although `qr` was not `ql + N` when it was called and
no value was ever pushed. With only slot 0 holding that value, `push(7)` completes
with `qr - ql = 2` and the `pop` that follows returns `170`, a value never
pushed. -/
theorem C13_uninitialised_slots_break_invariant :
    ((FixedSizeNoLockQueue.construct {} 0 (fun _ => ⟨170, -1431655766⟩)).data 0).data = 170 ∧
      FixedSizeNoLockQueue.push 2 3
          (FixedSizeNoLockQueue.construct {} 0 (fun _ => ⟨170, -1431655766⟩)) 7
        = .waits { FixedSizeNoLockQueue.construct {} 0 (fun _ => ⟨170, -1431655766⟩) with
            qr := 2 } ∧
      ((FixedSizeNoLockQueue.run 2 2 [.push 7]
          (FixedSizeNoLockQueue.construct {} 0
            (Function.update (fun _ => ⟨0, 0⟩) 0 ⟨170, -1431655766⟩)) []).state?.map
        (fun q => (q.ql, q.qr))) = some (0, 2) ∧
      (FixedSizeNoLockQueue.run 2 2 [.push 7, .pop]
          (FixedSizeNoLockQueue.construct {} 0
            (Function.update (fun _ => ⟨0, 0⟩) 0 ⟨170, -1431655766⟩)) []).value?
        = some [some 170] := by
  refine ⟨rfl, rfl, rfl, rfl⟩

/-- C11 (as stated, refuted): capacity 2, `qr = ql = 0`, the producer loaded slot 0 as
`{0, 0}` but another producer has since written `{5, 1}` there, so its compare-and-swap
fails: the iteration ends in `continue` with `qr` still `0`, although a compare-and-swap
of `qr` from `0` to `1` would have succeeded; had it loaded the slot as occupied,
`qr` would be `1`. -/
theorem C11_counterexample_no_help_on_lost_cas :
    (FixedSizeNoLockQueue.pushIteration 2 7 0 ⟨0, 0⟩
          { FixedSizeNoLockQueue.construct {} 0 (fun _ => ⟨0, 0⟩) with
            data := Function.update (fun _ => ⟨0, 0⟩) 0 ⟨5, 1⟩ }).isRetry = true ∧
      ((FixedSizeNoLockQueue.pushIteration 2 7 0 ⟨0, 0⟩
          { FixedSizeNoLockQueue.construct {} 0 (fun _ => ⟨0, 0⟩) with
            data := Function.update (fun _ => ⟨0, 0⟩) 0 ⟨5, 1⟩ }).state?.map
        (fun q => q.qr)) = some 0 ∧
      ((FixedSizeNoLockQueue.pushIteration 2 7 0 ⟨5, 1⟩
          { FixedSizeNoLockQueue.construct {} 0 (fun _ => ⟨0, 0⟩) with
            data := Function.update (fun _ => ⟨0, 0⟩) 0 ⟨5, 1⟩ }).state?.map
        (fun q => q.qr)) = some 1 := by
  refine ⟨rfl, rfl, rfl⟩

/-- C11 (amended): in one iteration of the push loop of a ring of capacity
`N ≥ 1` in which the tail cursor is unchanged and the queue is not full: when the
slot at `tail mod N` was read as empty and the compare-and-swap on that slot fails,
push changes nothing (it makes no attempt on `qr`) and retries; when that
compare-and-swap succeeds, push has written the slot, advances `qr` from `pos` to
`pos + 1` and returns; when the slot was read as occupied, push advances `qr` from
`pos` to `pos + 1` and retries. An iteration changes `qr` in these last two cases
only: whatever the locals and the shared state, an iteration that ends with another
`qr` passed both checks, set `qr` to `pos + 1`, and either read the slot as occupied
or won the compare-and-swap on it. -/
theorem C11_push_lost_cas_retries (capacity : Nat) (val : Byte) (pos : Nat)
    (q : FixedSizeNoLockQueue) (hN : 1 ≤ capacity) (hpos : pos = q.qr)
    (hroom : pos ≠ q.ql + capacity) :
    (∀ back : DataWithRef, back.data = 0 → q.data (pos % capacity) ≠ back →
        FixedSizeNoLockQueue.pushIteration capacity val pos back q = .retry q) ∧
      (∀ back : DataWithRef, back.data = 0 → q.data (pos % capacity) = back →
        FixedSizeNoLockQueue.pushIteration capacity val pos back q
          = .exit { q with
              data := Function.update q.data (pos % capacity) ⟨val, wrap32 (back.ref + 1)⟩,
              qr := pos + 1 }) ∧
      (∀ back : DataWithRef, back.data ≠ 0 →
        FixedSizeNoLockQueue.pushIteration capacity val pos back q
          = .retry { q with qr := pos + 1 }) ∧
      (∀ (p : Nat) (back : DataWithRef) (q0 q1 : FixedSizeNoLockQueue),
        (FixedSizeNoLockQueue.pushIteration capacity val p back q0).state? = some q1 →
          q1.qr ≠ q0.qr →
            p = q0.qr ∧ p ≠ q0.ql + capacity ∧ q1.qr = p + 1 ∧
              (back.data ≠ 0 ∨ (back.data = 0 ∧ q0.data (p % capacity) = back))) := by
  have h0 : capacity ≠ 0 := by omega
  subst hpos
  refine ⟨fun back hempty hlost => ?_, fun back hempty hwon => ?_, fun back hocc => ?_,
    fun p back q0 q1 hstep hne => ?_⟩
  · simp [FixedSizeNoLockQueue.pushIteration, h0, hroom, hempty,
      FixedSizeNoLockQueue.casSlot, hlost]
  · simp [FixedSizeNoLockQueue.pushIteration, h0, hroom, hempty,
      FixedSizeNoLockQueue.casSlot, hwon, FixedSizeNoLockQueue.casQr]
  · simp [FixedSizeNoLockQueue.pushIteration, h0, hroom, hocc, FixedSizeNoLockQueue.casQr]
  · unfold FixedSizeNoLockQueue.pushIteration at hstep
    rw [if_neg h0] at hstep
    by_cases h1 : p ≠ q0.qr
    · rw [if_pos h1] at hstep
      simp only [Step.state?, Option.some.injEq] at hstep
      subst hstep
      exact absurd rfl hne
    · rw [if_neg h1] at hstep
      have hp : p = q0.qr := not_not.mp h1
      by_cases h2 : p = q0.ql + capacity
      · rw [if_pos h2] at hstep
        simp only [Step.state?, Option.some.injEq] at hstep
        subst hstep
        exact absurd rfl hne
      · rw [if_neg h2] at hstep
        by_cases h3 : back.data = 0
        · rw [if_pos h3] at hstep
          by_cases h4 : q0.data (p % capacity) = back
          · simp only [FixedSizeNoLockQueue.casSlot, if_pos h4, Step.state?,
              Option.some.injEq] at hstep
            subst hstep
            refine ⟨hp, h2, ?_, Or.inr ⟨h3, h4⟩⟩
            simp [FixedSizeNoLockQueue.casQr, hp]
          · simp only [FixedSizeNoLockQueue.casSlot, if_neg h4, Step.state?,
              Option.some.injEq] at hstep
            subst hstep
            exact absurd rfl hne
        · rw [if_neg h3] at hstep
          simp only [Step.state?, Option.some.injEq] at hstep
          subst hstep
          refine ⟨hp, h2, ?_, Or.inl h3⟩
          simp [FixedSizeNoLockQueue.casQr, hp]

/-- Witness for C11: the state of the counterexample (the compare-and-swap on slot 0
is lost: nothing changes; read as occupied: `qr` moves to `1`), and the zeroed ring,
on which the compare-and-swap is won and the iteration leaves with `qr = 1`. -/
theorem C11_push_lost_cas_retries_witness :
    (FixedSizeNoLockQueue.pushIteration 2 7 0 ⟨0, 0⟩
        { FixedSizeNoLockQueue.construct {} 0 (fun _ => ⟨0, 0⟩) with
          data := Function.update (fun _ => ⟨0, 0⟩) 0 ⟨5, 1⟩ }
      = .retry { FixedSizeNoLockQueue.construct {} 0 (fun _ => ⟨0, 0⟩) with
          data := Function.update (fun _ => ⟨0, 0⟩) 0 ⟨5, 1⟩ }) ∧
      (FixedSizeNoLockQueue.pushIteration 2 7 0 ⟨5, 1⟩
        { FixedSizeNoLockQueue.construct {} 0 (fun _ => ⟨0, 0⟩) with
          data := Function.update (fun _ => ⟨0, 0⟩) 0 ⟨5, 1⟩ }
      = .retry { FixedSizeNoLockQueue.construct {} 0 (fun _ => ⟨0, 0⟩) with
          data := Function.update (fun _ => ⟨0, 0⟩) 0 ⟨5, 1⟩, qr := 1 }) ∧
      (FixedSizeNoLockQueue.pushIteration 2 7 0 ⟨0, 0⟩
        (FixedSizeNoLockQueue.construct {} 0 (fun _ => ⟨0, 0⟩))
      = .exit { FixedSizeNoLockQueue.construct {} 0 (fun _ => ⟨0, 0⟩) with
          data := Function.update (fun _ => ⟨0, 0⟩) 0 ⟨7, 1⟩, qr := 1 }) :=
  ⟨(C11_push_lost_cas_retries 2 7 0
      { FixedSizeNoLockQueue.construct {} 0 (fun _ => ⟨0, 0⟩) with
        data := Function.update (fun _ => ⟨0, 0⟩) 0 ⟨5, 1⟩ }
      (by decide) rfl (by decide)).1 ⟨0, 0⟩ rfl (by simp [Function.update]),
    (C11_push_lost_cas_retries 2 7 0
      { FixedSizeNoLockQueue.construct {} 0 (fun _ => ⟨0, 0⟩) with
        data := Function.update (fun _ => ⟨0, 0⟩) 0 ⟨5, 1⟩ }
      (by decide) rfl (by decide)).2.2.1 ⟨5, 1⟩ (by decide),
    (C11_push_lost_cas_retries 2 7 0 (FixedSizeNoLockQueue.construct {} 0 (fun _ => ⟨0, 0⟩))
      (by decide) rfl (by decide)).2.1 ⟨0, 0⟩ rfl rfl⟩

/-! ### `DynamicNoLockQueue`: lagging tail, shape and generations -/

/-- C12: for every retry count `R ≥ 1` and every state in which `head` and `tail`
point at the same node `a` whose `next` reference points at a linked node `b` (a push
has linked `b` and not yet swung `tail`), pop does not report the queue as empty: two
iterations of its loop suffice, the first advances `tail` to `head.next` with `tail`'s
generation increased by 1, the second returns `true` with the payload of `b` and
`head` advanced to `b`. -/
theorem C12_dynamicNoLock_pop_helps_tail (q : DynamicNoLockQueue) (val : Byte)
    (fuel a b : Nat) (nd nb : node) (hR : 1 ≤ q.config.retries) (hfuel : 2 ≤ fuel)
    (hhead : q.head.ptr = some a) (htail : q.tail.ptr = some a)
    (hnd : q.heap[a]? = some nd) (hnext : nd.next.ptr = some b) (hab : b ≠ a)
    (hnb : q.heap[b]? = some nb) :
    DynamicNoLockQueue.pop fuel q val
      = .done { q with tail := ⟨some b, q.tail.ref + 1⟩, head := ⟨some b, q.head.ref + 1⟩ }
          (true, nb.data) := by
  obtain ⟨f, rfl⟩ : ∃ f, fuel = f + 2 := ⟨fuel - 2, by omega⟩
  obtain ⟨n, hn⟩ : ∃ n, q.config.retries.toNat = n + 1 :=
    ⟨q.config.retries.toNat - 1, by omega⟩
  have hab1 : ¬ a = b := fun h => hab h.symm
  simp [DynamicNoLockQueue.pop, hn, DynamicNoLockQueue.popRetry, DynamicNoLockQueue.popLoop,
    DynamicNoLockQueue.deref, hhead, htail, hnd, hnext, hnb, hab1,
    DynamicNoLockQueue.tagged_ptr_eq_self, DynamicNoLockQueue.casTail,
    DynamicNoLockQueue.casHead]

/-- Witness for C12: a push of `7` onto the fresh queue stopped after linking its
node. -/
theorem C12_dynamicNoLock_pop_helps_tail_witness :
    (1 : Int) ≤ 2 ∧ 2 ≤ 2 ∧
      DynamicNoLockQueue.pop 2
          { config := {}, thread_count := 0,
            heap := [{ data := 0, next := ⟨some 1, 1⟩ }, { data := 7, next := ⟨none, 0⟩ }],
            head := ⟨some 0, 0⟩, tail := ⟨some 0, 0⟩ } 0
        = .done
            { config := {}, thread_count := 0,
              heap := [{ data := 0, next := ⟨some 1, 1⟩ }, { data := 7, next := ⟨none, 0⟩ }],
              head := ⟨some 1, 1⟩, tail := ⟨some 1, 1⟩ }
            (true, 7) :=
  ⟨by decide, by decide,
    C12_dynamicNoLock_pop_helps_tail
      { config := {}, thread_count := 0,
        heap := [{ data := 0, next := ⟨some 1, 1⟩ }, { data := 7, next := ⟨none, 0⟩ }],
        head := ⟨some 0, 0⟩, tail := ⟨some 0, 0⟩ } 0 2 0 1
      { data := 0, next := ⟨some 1, 1⟩ } { data := 7, next := ⟨none, 0⟩ }
      (by decide) (by decide) rfl rfl rfl rfl (by decide) rfl⟩

namespace DynamicNoLockQueue

end DynamicNoLockQueue

end ConcurrentQueue
